import Mathlib

/-!
# Verification of the mycogeneexplorer metabolic-network construction

Shallow embedding of the graph-construction core of the `mycogeneexplorer`
repository: the edge derivation and resolution logic of
`src/mycogeneexplorer/metabolic_network.py` and its near-duplicate
`src/mycogeneexplorer/network_analysis/reaction_network.py`, the model
adapter `load_cobra_model_from_file`, the graph assembly over networkx
`Graph`/`DiGraph`, node-link persistence, and the command-line tool
`src/scripts/create_metabolic_network.py`.

Modelling conventions:
* Python floats are embedded as exact rationals (`Rat`); every weight the
  claims mention is an exact arithmetic expression over model data.
* The external FVA oracle (`cobra.flux_analysis.flux_variability_analysis`)
  is a parameter: an association list from reaction id to the
  `(minimum, maximum)` flux pair it returns.  A pandas `.loc` lookup of a
  reaction id absent from the oracle's result raises `KeyError`; fallible
  steps therefore live in `Except Err`.
* `pandas.DataFrame.groupby` sorts group keys and preserves the original
  row order inside each group; groups are embedded as filters of the row
  list over the sorted list of distinct keys.  For the resolution stage
  only the *within-group* order is observable in the final graph (distinct
  `(source, sink)` keys produce independent edges), so the resolved edge
  list is enumerated over first-occurrence keys.
-/

set_option autoImplicit false

namespace Myco

/-- One row of the `rxn_met_df` dataframe built by
`find_directed_edges_from_model`: a (reaction, metabolite) incidence with
the reaction's reversibility, the stoichiometric coefficient of the
metabolite in the reaction, and the FVA maximum/minimum fluxes. -/
structure Row where
  rxn : String
  met : String
  reversible : Bool
  coefficient : Rat
  fluxMax : Rat
  fluxMin : Rat
  deriving Repr, DecidableEq

/-- A source or sink entry after classification (the rows of `source_df` /
`sinks_df`): reaction id, metabolite, coefficient and flux (with the sign
flips applied on the reverse branches). -/
structure Entry where
  rxn : String
  met : String
  coefficient : Rat
  flux : Rat
  deriving Repr, DecidableEq

/-- `sources_irreversible_df` of `metabolic_network.py`: irreversible rows
with positive coefficient; `flux_min` dropped, `flux_max` renamed to
`flux`.  (No clamping of negative fluxes in this module.) -/
def sourcesIrreversible (g : List Row) : List Entry :=
  (g.filter (fun r => !r.reversible && 0 < r.coefficient)).map
    (fun r => ⟨r.rxn, r.met, r.coefficient, r.fluxMax⟩)

/-- `sinks_irreversible_df`: irreversible rows with negative coefficient;
`flux_max` renamed to `flux`. -/
def sinksIrreversible (g : List Row) : List Entry :=
  (g.filter (fun r => !r.reversible && r.coefficient < 0)).map
    (fun r => ⟨r.rxn, r.met, r.coefficient, r.fluxMax⟩)

/-- `reversible_source_pos_coef_df`: reversible, coefficient positive and
`flux_max > 0`; flux is `flux_max`. -/
def reversibleSourcePos (g : List Row) : List Entry :=
  (g.filter (fun r => r.reversible && 0 < r.coefficient && 0 < r.fluxMax)).map
    (fun r => ⟨r.rxn, r.met, r.coefficient, r.fluxMax⟩)

/-- `reversible_source_neg_coef_df`: reversible, coefficient negative and
`flux_min < 0`; both the coefficient and the flux (`flux_min`) are negated. -/
def reversibleSourceNeg (g : List Row) : List Entry :=
  (g.filter (fun r => r.reversible && r.coefficient < 0 && r.fluxMin < 0)).map
    (fun r => ⟨r.rxn, r.met, -r.coefficient, -r.fluxMin⟩)

/-- `reversible_sink_pos_coef_df`: reversible, coefficient positive and
`flux_min < 0`; coefficient and flux negated. -/
def reversibleSinkPos (g : List Row) : List Entry :=
  (g.filter (fun r => r.reversible && 0 < r.coefficient && r.fluxMin < 0)).map
    (fun r => ⟨r.rxn, r.met, -r.coefficient, -r.fluxMin⟩)

/-- `reversible_sink_neg_coef_df`: reversible, coefficient negative and
`flux_max > 0`; flux is `flux_max`. -/
def reversibleSinkNeg (g : List Row) : List Entry :=
  (g.filter (fun r => r.reversible && r.coefficient < 0 && 0 < r.fluxMax)).map
    (fun r => ⟨r.rxn, r.met, r.coefficient, r.fluxMax⟩)

/-- `source_df` of `metabolic_network.py`: concatenation of the irreversible
sources and the two reversible source branches. -/
def sourceEntries (g : List Row) : List Entry :=
  sourcesIrreversible g ++ reversibleSourcePos g ++ reversibleSourceNeg g

/-- `sinks_df`: concatenation of the irreversible sinks and the two
reversible sink branches. -/
def sinkEntries (g : List Row) : List Entry :=
  sinksIrreversible g ++ reversibleSinkPos g ++ reversibleSinkNeg g

/-- `reaction_network.py` line 124, `sources_irreversible_df.loc[flux < 0] = 0`:
the scalar 0 is broadcast to EVERY column of the selected rows, so the
object columns `rxn` and `met` end up holding the integer `0` (rendered
here as the string `"0"`) and the coefficient is zeroed as well, not only
the flux. -/
def clampEntryRN (e : Entry) : Entry :=
  if e.flux < 0 then ⟨"0", "0", 0, 0⟩ else e

/-- `sources_irreversible_df` of `reaction_network.py`, after the
whole-row clamp of negative-flux rows. -/
def sourcesIrreversibleRN (g : List Row) : List Entry :=
  (sourcesIrreversible g).map clampEntryRN

/-- `source_df` of `reaction_network.py` (with the whole-row clamp). -/
def sourceEntriesRN (g : List Row) : List Entry :=
  sourcesIrreversibleRN g ++ reversibleSourcePos g ++ reversibleSourceNeg g

/-- The epsilon `1e-30` added before taking the reciprocal weight. -/
def eps : Rat := 1 / 10 ^ 30

/-- A candidate (and also a resolved) edge: one row of `edge_weight_df`. -/
structure Candidate where
  source : String
  sink : String
  weight : Rat
  metabolite : String
  deriving Repr, DecidableEq

/-- The weight computed for a candidate whose source column holds `name`:
`source_df.loc[source_df["rxn"] == name, "flux"] * ... .values[0]` takes
the FIRST row of `source_df` whose reaction id equals `name`, and the
weight is that row's `flux * coefficient` (reciprocal of `... + 1e-30`
when `reciprocal_weight` is set).  The `none` branch is unreachable when
`name` is drawn from `srcs` itself. -/
def lookupWeight (recip : Bool) (srcs : List Entry) (name : String) : Rat :=
  let base : Rat :=
    match srcs.find? (fun e => e.rxn == name) with
    | some e => e.flux * e.coefficient
    | none => 0
  if recip then 1 / (base + eps) else base

/-- The candidate edges produced for one metabolite group: the Cartesian
product `itertools.product(source_df["rxn"], sinks_df["rxn"])` over the
given source/sink entry lists.  No `source != sink` exclusion happens
here in either module. -/
def candidatesOver (recip : Bool) (met : String)
    (srcs sinks : List Entry) : List Candidate :=
  (srcs.map (fun s =>
    sinks.map (fun t =>
      Candidate.mk s.rxn t.rxn (lookupWeight recip srcs s.rxn) met))).flatten

/-- Candidates of one metabolite group, `metabolic_network.py` variant. -/
def candidatesForGroup (recip : Bool) (met : String) (g : List Row) :
    List Candidate :=
  candidatesOver recip met (sourceEntries g) (sinkEntries g)

/-- Candidates of one metabolite group, `reaction_network.py` variant
(same computation over the clamped source entries). -/
def candidatesForGroupRN (recip : Bool) (met : String) (g : List Row) :
    List Candidate :=
  candidatesOver recip met (sourceEntriesRN g) (sinkEntries g)

/-- The ordered key of a candidate: the `(source, sink)` pair used by
`edge_weight_df.groupby(["source", "sink"])`. -/
def Candidate.key (c : Candidate) : String × String :=
  (c.source, c.sink)

/-- Append a key if it is not present yet (first-occurrence order). -/
def insertKey (ks : List (String × String)) (k : String × String) :
    List (String × String) :=
  if k ∈ ks then ks else ks ++ [k]

/-- The distinct `(source, sink)` keys of a candidate list, in order of
first occurrence.  (`groupby` enumerates them sorted instead; the order
is not observable in the assembled graph, where distinct keys give
independent edges.) -/
def pairKeys (cs : List Candidate) : List (String × String) :=
  cs.foldl (fun ks c => insertKey ks c.key) []

/-- The group of candidates with a given `(source, sink)` key, in
production order (as `groupby` preserves intra-group order). -/
def groupOf (cs : List Candidate) (k : String × String) : List Candidate :=
  cs.filter (fun c => c.key = k)

/-- `df["weight"].min()` over a candidate group. -/
def minWeight : List Candidate → Rat
  | [] => 0
  | c :: cs => cs.foldl (fun m d => min m d.weight) c.weight

/-- `df["weight"].max()` over a candidate group. -/
def maxWeight : List Candidate → Rat
  | [] => 0
  | c :: cs => cs.foldl (fun m d => max m d.weight) c.weight

/-- Resolution of one `(source, sink)` group: a singleton group is kept
unchanged; otherwise `df.loc[df["weight"] == df["weight"].min()].iloc[0]`
(resp. `.max()`) keeps the FIRST row attaining the minimum (resp.
maximum) weight. -/
def resolveGroup (recip : Bool) (g : List Candidate) : Option Candidate :=
  match g with
  | [] => none
  | [c] => some c
  | _ =>
    if recip then g.find? (fun c => c.weight == minWeight g)
    else g.find? (fun c => c.weight == maxWeight g)

/-- Edge resolution as in `metabolic_network.py` lines 237-249: one
resolved edge per `(source, sink)` group, WITHOUT any `source != sink`
check. -/
def resolveEdges (recip : Bool) (cs : List Candidate) : List Candidate :=
  (pairKeys cs).filterMap (fun k => resolveGroup recip (groupOf cs k))

/-- Edge resolution as in `reaction_network.py` lines 175-190: identical,
but a group whose key has `source == sink` is skipped
(`if source != sink:`). -/
def resolveEdgesRN (recip : Bool) (cs : List Candidate) : List Candidate :=
  (pairKeys cs).filterMap (fun k =>
    if k.1 ≠ k.2 then resolveGroup recip (groupOf cs k) else none)

/-! ## The model and the full edge-derivation pipelines -/

/-- A reaction as exposed by the model adapter: identifier, the list of
(metabolite id, stoichiometric coefficient) pairs (`rxn.metabolites` /
`rxn.get_coefficient`), and the reversibility flag. -/
structure Reaction where
  id : String
  mets : List (String × Rat)
  reversible : Bool
  deriving Repr, DecidableEq

/-- A metabolic model: its ordered list of reactions. -/
structure Model where
  reactions : List Reaction
  deriving Repr, DecidableEq

/-- The response of the external FVA oracle: an association list from
reaction id to the `(minimum, maximum)` flux pair. -/
def Fva := List (String × Rat × Rat)

/-- Errors the embedded code can raise. -/
inductive Err where
  /-- A pandas `.loc` lookup of a key absent from the dataframe index. -/
  | keyError : String → Err
  /-- `AttributeError`, raised by `load_cobra_model_from_file`. -/
  | attributeError : String → Err
  /-- `IndexError`, from `re.findall(...)[-1]` on an empty match list. -/
  | indexError : Err
  /-- `TypeError`, raised by Python when a call passes a keyword argument
  the callee's signature does not accept. -/
  | typeError : String → Err
  /-- Modelled from the spec: `MissingFluxDataError`, the data-missing
  error named by the specification; no such error class exists anywhere
  in the repository's code and nothing below ever produces it. -/
  | missingFluxData : Err
  deriving Repr, DecidableEq

/-- `fva_results.loc[rxn_name, ...]`: look a reaction up in the oracle's
result table. -/
def fvaLookup (fva : Fva) (r : String) : Option (Rat × Rat) :=
  (fva.find? (fun p => p.1 == r)).map (fun p => p.2)

/-- Left-to-right traversal in `Except Err`, stopping at the first error
(the loop body of a Python `for` that can raise). -/
def traverseE {α β : Type} (f : α → Except Err β) : List α → Except Err (List β)
  | [] => Except.ok []
  | a :: as =>
    match f a with
    | Except.error e => Except.error e
    | Except.ok b =>
      match traverseE f as with
      | Except.error e => Except.error e
      | Except.ok bs => Except.ok (b :: bs)

/-- The rows contributed by one reaction to `rxn_met_df`: one row per
incident metabolite; each row looks the reaction up in the FVA results
(`KeyError` if absent — only reactions with at least one metabolite
perform the lookup). -/
def rowsForReaction (fva : Fva) (r : Reaction) : Except Err (List Row) :=
  traverseE (fun mc =>
    match fvaLookup fva r.id with
    | some fl => Except.ok ⟨r.id, mc.1, r.reversible, mc.2, fl.2, fl.1⟩
    | none => Except.error (Err.keyError r.id)) r.mets

/-- `rxn_met_df` of `find_directed_edges_from_model`: rows in
reaction-major iteration order. -/
def buildRows (model : Model) (fva : Fva) : Except Err (List Row) :=
  (traverseE (rowsForReaction fva) model.reactions).map List.flatten

/-- The distinct metabolite ids of the rows, in first-occurrence order. -/
def uniqueMets (rows : List Row) : List String :=
  rows.foldl (fun acc r => if r.met ∈ acc then acc else acc ++ [r.met]) []

/-- `groupby("met")` enumerates its groups over the sorted distinct keys. -/
def sortedMets (rows : List Row) : List String :=
  (uniqueMets rows).insertionSort (· ≤ ·)

/-- `rxn_met_df.groupby("met")`: the groups, in sorted key order, each
keeping the original row order. -/
def metGroups (rows : List Row) : List (String × List Row) :=
  (sortedMets rows).map (fun m => (m, rows.filter (fun r => r.met == m)))

/-- The full candidate list (`edge_weight_df`), `metabolic_network.py`. -/
def allCandidates (recip : Bool) (rows : List Row) : List Candidate :=
  ((metGroups rows).map (fun g => candidatesForGroup recip g.1 g.2)).flatten

/-- The full candidate list, `reaction_network.py` variant. -/
def allCandidatesRN (recip : Bool) (rows : List Row) : List Candidate :=
  ((metGroups rows).map (fun g => candidatesForGroupRN recip g.1 g.2)).flatten

/-- `find_directed_edges_from_model` of `metabolic_network.py`, as a
function of the oracle's response: build the rows (failing on a missing
flux lookup), derive the candidates per metabolite group, resolve. -/
def findDirectedEdgesFromModel (recip : Bool) (model : Model) (fva : Fva) :
    Except Err (List Candidate) :=
  (buildRows model fva).map (fun rows => resolveEdges recip (allCandidates recip rows))

/-- `find_directed_edges_from_model` of `reaction_network.py`. -/
def findDirectedEdgesFromModelRN (recip : Bool) (model : Model) (fva : Fva) :
    Except Err (List Candidate) :=
  (buildRows model fva).map (fun rows => resolveEdgesRN recip (allCandidatesRN recip rows))

/-! ## Undirected edge derivation (`find_edges_from_model`) -/

/-- An undirected edge tuple `(i, j, {"metabolite": group})`. -/
structure UEdge where
  fst : String
  snd : String
  metabolite : String
  deriving Repr, DecidableEq

/-- The (reaction, metabolite) incidence pairs, reaction-major
(`reaction_metabolite_dict`); no flux data is consulted anywhere in the
undirected derivation. -/
def stoichPairs (model : Model) : List (String × String) :=
  (model.reactions.map (fun r => r.mets.map (fun mc => (r.id, mc.1)))).flatten

/-- The distinct metabolites of the incidence pairs, first-occurrence
order. -/
def uniqueMetsOfPairs (ps : List (String × String)) : List String :=
  ps.foldl (fun acc p => if p.2 ∈ acc then acc else acc ++ [p.2]) []

/-- The groups of `rxn_met_df.groupby("met")` for the undirected variant:
sorted metabolite keys, each with the reactions of its rows in order. -/
def metGroupsU (model : Model) : List (String × List String) :=
  ((uniqueMetsOfPairs (stoichPairs model)).insertionSort (· ≤ ·)).map
    (fun m => (m, ((stoichPairs model).filter (fun p => p.2 == m)).map (fun p => p.1)))

/-- `itertools.combinations(l, 2)`: the ordered pairs `(l[i], l[j])`,
`i < j`, enumerated lexicographically by position. -/
def combinations2 {α : Type} : List α → List (α × α)
  | [] => []
  | x :: xs => xs.map (fun y => (x, y)) ++ combinations2 xs

/-- `find_edges_from_model` of `metabolic_network.py` lines 120-138: for
each metabolite group, every 2-combination of its incident reactions
becomes an edge tuple annotated with the group's metabolite. -/
def findEdgesFromModel (model : Model) : List UEdge :=
  ((metGroupsU model).map (fun g =>
    (combinations2 g.2).map (fun p => UEdge.mk p.1 p.2 g.1))).flatten

/-! ## Graph assembly (networkx `Graph` / `DiGraph`) -/

/-- A stored graph edge with its attribute dictionary: the `weight` key
(absent on undirected edges, hence optional) and the `metabolite` key. -/
structure Edge where
  source : String
  target : String
  weight : Option Rat
  metabolite : String
  deriving Repr, DecidableEq

/-- A networkx graph: directedness, node list (insertion order, no
duplicates by construction) and edge list. -/
structure Graph where
  directed : Bool
  nodes : List String
  edges : List Edge
  deriving Repr, DecidableEq

/-- The empty graph (`nx.Graph()` / `nx.DiGraph()`). -/
def Graph.empty (directed : Bool) : Graph :=
  ⟨directed, [], []⟩

/-- `G.add_node(n)`: a no-op when the node exists. -/
def Graph.addNode (G : Graph) (n : String) : Graph :=
  if n ∈ G.nodes then G else { G with nodes := G.nodes ++ [n] }

/-- Whether a stored edge `e` is THE edge between `u` and `v`: in a
directed graph the orientation must match; in an undirected graph either
orientation does. -/
def edgeMatches (directed : Bool) (e : Edge) (u v : String) : Bool :=
  (e.source == u && e.target == v) ||
    (!directed && e.source == v && e.target == u)

/-- `G.add_edge(u, v, **attrs)`: missing endpoints are added as nodes;
if the edge already exists its attribute dictionary is UPDATED in place
(the stored orientation is kept), otherwise the new edge is appended. -/
def Graph.addEdge (G : Graph) (u v : String) (w : Option Rat) (m : String) :
    Graph :=
  let G₁ := (G.addNode u).addNode v
  if G₁.edges.any (fun e => edgeMatches G₁.directed e u v) then
    { G₁ with
      edges := G₁.edges.map (fun e =>
        if edgeMatches G₁.directed e u v then
          { e with weight := w, metabolite := m }
        else e) }
  else
    { G₁ with edges := G₁.edges ++ [⟨u, v, w, m⟩] }

/-- `G.add_edges_from(edge_list)` for the undirected edge tuples (whose
attribute dictionaries carry no `weight` key). -/
def Graph.addUEdges (G : Graph) (es : List UEdge) : Graph :=
  es.foldl (fun G e => G.addEdge e.fst e.snd none e.metabolite) G

/-- `G.add_edges_from(edge_list)` for the resolved directed edges. -/
def Graph.addDEdges (G : Graph) (es : List Candidate) : Graph :=
  es.foldl (fun G e => G.addEdge e.source e.sink (some e.weight) e.metabolite) G

/-- `create_metabolic_network`: an undirected `nx.Graph` with one node
per reaction id, then the undirected edges. -/
def createMetabolicNetwork (model : Model) : Graph :=
  let G := model.reactions.foldl (fun G r => G.addNode r.id) (Graph.empty false)
  G.addUEdges (findEdgesFromModel model)

/-- `create_directed_metabolic_network`: an `nx.DiGraph` with one node
per reaction id, then the resolved directed edges (fails when the flux
lookup fails). -/
def createDirectedMetabolicNetwork (recip : Bool) (model : Model)
    (fva : Fva) : Except Err Graph :=
  (findDirectedEdgesFromModel recip model fva).map (fun es =>
    let G := model.reactions.foldl (fun G r => G.addNode r.id) (Graph.empty true)
    G.addDEdges es)

/-! ## Node-link persistence (`write_network` / `read_network`)

The JSON text layer is treated as exact: a node-link document is embedded
as the structure `json.dump` writes and `json.load` reads back. -/

/-- The node-link JSON document
`{"directed": ..., "multigraph": ..., "nodes": [{"id": ...}], "links":
[{"source", "target", "weight", "metabolite"}]}`. -/
structure NodeLinkDoc where
  directed : Bool
  multigraph : Bool
  nodes : List String
  links : List Edge
  deriving Repr, DecidableEq

/-- `nx.node_link_data(G)`: the document records the graph's
directedness, its multigraph flag (always `false` for `Graph`/`DiGraph`),
its nodes and its edges. -/
def nodeLinkData (G : Graph) : NodeLinkDoc :=
  ⟨G.directed, false, G.nodes, G.edges⟩

/-- `nx.node_link_graph(data, directed=...)`: the `directed` (and
`multigraph`) values STORED IN THE DATA override the arguments; the graph
is rebuilt by adding the document's nodes, then its links as edges. -/
def nodeLinkGraph (doc : NodeLinkDoc) (_directedArg : Bool) : Graph :=
  let G := doc.nodes.foldl (fun G n => G.addNode n) (Graph.empty doc.directed)
  doc.links.foldl (fun G e => G.addEdge e.source e.target e.weight e.metabolite) G

/-- `write_network`: serialize the graph as a node-link document. -/
def writeNetwork (G : Graph) : NodeLinkDoc :=
  nodeLinkData G

/-- `read_network`: parse a node-link document back into a graph; the
`directed` argument is the caller's flag, overridden by the document's
own `directed` value inside `node_link_graph`. -/
def readNetwork (doc : NodeLinkDoc) (directed : Bool) : Graph :=
  nodeLinkGraph doc directed

/-! ## The model adapter (`load_cobra_model_from_file`) -/

/-- The `model` argument: either a path string or a non-string input (an
open file object / in-memory handle, opaque here). -/
inductive ModelInput where
  | path : String → ModelInput
  | fileObject : ModelInput
  deriving Repr, DecidableEq

/-- Which cobra loader a successful dispatch invoked (the loaded model
itself is external and opaque). -/
inductive LoadedVia where
  | json | sbml | yaml | matlab
  deriving Repr, DecidableEq

/-- Whether a character is an ASCII lowercase letter (the class `[a-z]`). -/
def isLowerAscii (c : Char) : Bool :=
  'a' ≤ c && c ≤ 'z'

/-- `re.findall("\.[a-z]+$", model)[-1][1:]`: the regex matches a dot
followed by one or more lowercase letters at the end of the string; the
match (if any) is unique because of the `$` anchor, and `[1:]` strips the
dot.  `none` models the empty match list, on which `[-1]` raises
`IndexError`. -/
def findExtension (s : String) : Option String :=
  let rev := s.data.reverse
  let letters := rev.takeWhile isLowerAscii
  if letters.isEmpty then none
  else if (rev.drop letters.length).head? = some '.' then
    some (String.mk letters.reverse)
  else none

/-- The attribute-error message raised when no file type can be
resolved. -/
def missingTypeMsg : String :=
  "If model isn't str, must provide file_type"

/-- Resolve the effective `file_type` exactly as the Python control flow
does: an empty-string hint is falsy (`if not file_type`) and counts as
missing; for a path string the missing hint is replaced by the extracted
extension (raising `IndexError` when the regex finds nothing); after
that, a still-missing file type raises `AttributeError`. -/
def resolveFileType (model : ModelInput) (fileType : Option String) :
    Except Err String :=
  let hint : Option String :=
    match fileType with
    | some t => if t.isEmpty then none else some t
    | none => none
  match model, hint with
  | ModelInput.path s, none =>
    match findExtension s with
    | some ext => Except.ok ext
    | none => Except.error Err.indexError
  | ModelInput.path _, some t => Except.ok t
  | ModelInput.fileObject, some t => Except.ok t
  | ModelInput.fileObject, none =>
    Except.error (Err.attributeError missingTypeMsg)

/-- `load_cobra_model_from_file`: dispatch on the resolved file type.  A
file type matching none of the four recognized families falls through
every branch and the function RETURNS `None` (no error is raised). -/
def loadCobraModelFromFile (model : ModelInput) (fileType : Option String) :
    Except Err (Option LoadedVia) :=
  (resolveFileType model fileType).map (fun ft =>
    if ft ∈ ["JSON", "json", ".json"] then some LoadedVia.json
    else if ft ∈ ["sbml", "xml", "SBML", ".xml"] then some LoadedVia.sbml
    else if ft ∈ ["yaml", ".yml", "YAML"] then some LoadedVia.yaml
    else if ft ∈ ["matlab", "mat", ".mat", "Matlab", "MatLab"] then
      some LoadedVia.matlab
    else none)

/-- Whether a file-type tag is one the adapter recognizes. -/
def recognizedFileType (ft : String) : Bool :=
  ft ∈ ["JSON", "json", ".json"] || ft ∈ ["sbml", "xml", "SBML", ".xml"] ||
    ft ∈ ["yaml", ".yml", "YAML"] ||
    ft ∈ ["matlab", "mat", ".mat", "Matlab", "MatLab"]

/-! ## The command-line tool (`src/scripts/create_metabolic_network.py`) -/

/-- `argparse` semantics of an `action="store_true"` option: the
destination holds `True` when the flag is present on the command line and
the declared default otherwise. -/
def storeTrueOption (present : Bool) (dflt : Bool) : Bool :=
  if present then true else dflt

/-- The parsed `reciprocal` destination of `arg_parse`: the `-r` (long
form `--reciprocal`) flag is declared with `action="store_true"` AND
`default=True`. -/
def parseReciprocal (argv : List String) : Bool :=
  storeTrueOption (argv.contains "-r" || argv.contains "--reciprocal") true

/-- The keyword parameters `metabolic_network.create_directed_metabolic_network`
accepts (its `def` line, `metabolic_network.py` lines 274-278): `model`,
`file_type`, `reciprocal_weight`, `do_loopless`, `fva_prop` — and NO
`verbose`, unlike `reaction_network.create_directed_reaction_network`. -/
def createDirectedParams : List String :=
  ["model", "file_type", "reciprocal_weight", "do_loopless", "fva_prop"]

/-- The keyword arguments `main`'s directed branch passes
(`create_metabolic_network.py` lines 76-80): `reciprocal_weight`,
`do_loopless`, `fva_prop` and `verbose`. -/
def mainDirectedKwargs : List String :=
  ["reciprocal_weight", "do_loopless", "fva_prop", "verbose"]

/-- The directed branch of `main`: it calls
`mn.create_directed_metabolic_network(model, reciprocal_weight=args.reciprocal,
do_loopless=args.loopless, fva_prop=args.fva_prop, verbose=verbose)`.
Python checks every keyword name against the callee's signature before
running its body; a keyword the signature does not accept raises
`TypeError` and the callee never executes. -/
def mainDirectedNetwork (argv : List String) (model : Model) (fva : Fva) :
    Except Err Graph :=
  if mainDirectedKwargs.all (fun k => createDirectedParams.contains k) then
    createDirectedMetabolicNetwork (parseReciprocal argv) model fva
  else
    Except.error (Err.typeError
      "create_directed_metabolic_network got an unexpected keyword argument verbose")

/-! ## Lemmas about edge resolution -/

theorem mem_groupOf {cs : List Candidate} {k : String × String} {c : Candidate}
    (h : c ∈ groupOf cs k) : c ∈ cs ∧ c.key = k := by
  unfold groupOf at h
  rw [List.mem_filter] at h
  exact ⟨h.1, of_decide_eq_true h.2⟩

theorem mem_insertKey {ks : List (String × String)} {k' k : String × String} :
    k ∈ insertKey ks k' ↔ k ∈ ks ∨ k = k' := by
  unfold insertKey
  split
  · rename_i h
    exact ⟨Or.inl, fun h' => h'.elim id (fun e => e ▸ h)⟩
  · simp [List.mem_append]

theorem nodup_insertKey {ks : List (String × String)} (h : ks.Nodup)
    (k' : String × String) : (insertKey ks k').Nodup := by
  unfold insertKey
  split
  · exact h
  · rename_i hnot
    refine List.nodup_append.mpr ⟨h, List.nodup_singleton _, ?_⟩
    intro a ha hb
    rw [List.mem_singleton] at hb
    exact hnot (hb ▸ ha)

theorem mem_foldl_insertKey (cs : List Candidate) (ks : List (String × String))
    (k : String × String) :
    k ∈ cs.foldl (fun ks c => insertKey ks c.key) ks ↔
      k ∈ ks ∨ ∃ c ∈ cs, c.key = k := by
  induction cs generalizing ks with
  | nil => simp
  | cons c cs ih =>
    rw [List.foldl_cons, ih]
    rw [mem_insertKey]
    constructor
    · rintro ((h | rfl) | ⟨d, hd, hk⟩)
      · exact Or.inl h
      · exact Or.inr ⟨c, List.mem_cons_self _ _, rfl⟩
      · exact Or.inr ⟨d, List.mem_cons_of_mem _ hd, hk⟩
    · rintro (h | ⟨d, hd, hk⟩)
      · exact Or.inl (Or.inl h)
      · rcases List.mem_cons.mp hd with rfl | hd'
        · exact Or.inl (Or.inr hk.symm)
        · exact Or.inr ⟨d, hd', hk⟩

theorem nodup_foldl_insertKey (cs : List Candidate)
    (ks : List (String × String)) (h : ks.Nodup) :
    (cs.foldl (fun ks c => insertKey ks c.key) ks).Nodup := by
  induction cs generalizing ks with
  | nil => exact h
  | cons c cs ih => exact ih _ (nodup_insertKey h _)

theorem pairKeys_nodup (cs : List Candidate) : (pairKeys cs).Nodup :=
  nodup_foldl_insertKey cs [] List.nodup_nil

theorem mem_pairKeys {cs : List Candidate} {k : String × String} :
    k ∈ pairKeys cs ↔ ∃ c ∈ cs, c.key = k := by
  unfold pairKeys
  rw [mem_foldl_insertKey]
  simp

theorem foldl_min_le_init (cs : List Candidate) (a : Rat) :
    cs.foldl (fun m d => min m d.weight) a ≤ a := by
  induction cs generalizing a with
  | nil => exact le_refl a
  | cons c cs ih => exact le_trans (ih _) (min_le_left _ _)

theorem foldl_min_le_mem {cs : List Candidate} {d : Candidate} (h : d ∈ cs)
    (a : Rat) : cs.foldl (fun m e => min m e.weight) a ≤ d.weight := by
  induction cs generalizing a with
  | nil => cases h
  | cons c cs ih =>
    rcases List.mem_cons.mp h with rfl | h'
    · exact le_trans (foldl_min_le_init cs _) (min_le_right _ _)
    · exact ih h' _

theorem foldl_min_attained (cs : List Candidate) (a : Rat) :
    cs.foldl (fun m e => min m e.weight) a = a ∨
      ∃ d ∈ cs, cs.foldl (fun m e => min m e.weight) a = d.weight := by
  induction cs generalizing a with
  | nil => exact Or.inl rfl
  | cons c cs ih =>
    rw [List.foldl_cons]
    rcases ih (min a c.weight) with h | ⟨d, hd, hEq⟩
    · rcases min_choice a c.weight with h' | h'
      · exact Or.inl (by rw [h, h'])
      · exact Or.inr ⟨c, List.mem_cons_self _ _, by rw [h, h']⟩
    · exact Or.inr ⟨d, List.mem_cons_of_mem _ hd, hEq⟩

theorem minWeight_le {g : List Candidate} {d : Candidate} (h : d ∈ g) :
    minWeight g ≤ d.weight := by
  cases g with
  | nil => cases h
  | cons c cs =>
    unfold minWeight
    rcases List.mem_cons.mp h with rfl | h'
    · exact foldl_min_le_init cs _
    · exact foldl_min_le_mem h' _

theorem minWeight_attained {g : List Candidate} (h : g ≠ []) :
    ∃ d ∈ g, minWeight g = d.weight := by
  cases g with
  | nil => exact absurd rfl h
  | cons c cs =>
    unfold minWeight
    rcases foldl_min_attained cs c.weight with h' | ⟨d, hd, hEq⟩
    · exact ⟨c, List.mem_cons_self _ _, h'⟩
    · exact ⟨d, List.mem_cons_of_mem _ hd, hEq⟩

theorem foldl_max_ge_init (cs : List Candidate) (a : Rat) :
    a ≤ cs.foldl (fun m d => max m d.weight) a := by
  induction cs generalizing a with
  | nil => exact le_refl a
  | cons c cs ih => exact le_trans (le_max_left _ _) (ih _)

theorem foldl_max_ge_mem {cs : List Candidate} {d : Candidate} (h : d ∈ cs)
    (a : Rat) : d.weight ≤ cs.foldl (fun m e => max m e.weight) a := by
  induction cs generalizing a with
  | nil => cases h
  | cons c cs ih =>
    rcases List.mem_cons.mp h with rfl | h'
    · exact le_trans (le_max_right _ _) (foldl_max_ge_init cs _)
    · exact ih h' _

theorem foldl_max_attained (cs : List Candidate) (a : Rat) :
    cs.foldl (fun m e => max m e.weight) a = a ∨
      ∃ d ∈ cs, cs.foldl (fun m e => max m e.weight) a = d.weight := by
  induction cs generalizing a with
  | nil => exact Or.inl rfl
  | cons c cs ih =>
    rw [List.foldl_cons]
    rcases ih (max a c.weight) with h | ⟨d, hd, hEq⟩
    · rcases max_choice a c.weight with h' | h'
      · exact Or.inl (by rw [h, h'])
      · exact Or.inr ⟨c, List.mem_cons_self _ _, by rw [h, h']⟩
    · exact Or.inr ⟨d, List.mem_cons_of_mem _ hd, hEq⟩

theorem maxWeight_ge {g : List Candidate} {d : Candidate} (h : d ∈ g) :
    d.weight ≤ maxWeight g := by
  cases g with
  | nil => cases h
  | cons c cs =>
    unfold maxWeight
    rcases List.mem_cons.mp h with rfl | h'
    · exact foldl_max_ge_init cs _
    · exact foldl_max_ge_mem h' _

theorem maxWeight_attained {g : List Candidate} (h : g ≠ []) :
    ∃ d ∈ g, maxWeight g = d.weight := by
  cases g with
  | nil => exact absurd rfl h
  | cons c cs =>
    unfold maxWeight
    rcases foldl_max_attained cs c.weight with h' | ⟨d, hd, hEq⟩
    · exact ⟨c, List.mem_cons_self _ _, h'⟩
    · exact ⟨d, List.mem_cons_of_mem _ hd, hEq⟩

theorem resolveGroup_mem {recip : Bool} {g : List Candidate} {c : Candidate}
    (h : resolveGroup recip g = some c) : c ∈ g := by
  match g with
  | [] => exact absurd h (by simp [resolveGroup])
  | [c'] =>
    have : c' = c := by simpa [resolveGroup] using h
    rw [← this]
    exact List.mem_singleton_self _
  | c₁ :: c₂ :: t =>
    have hr : resolveGroup recip (c₁ :: c₂ :: t) =
        if recip then
          (c₁ :: c₂ :: t).find? (fun d => d.weight == minWeight (c₁ :: c₂ :: t))
        else
          (c₁ :: c₂ :: t).find? (fun d => d.weight == maxWeight (c₁ :: c₂ :: t)) := rfl
    rw [hr] at h
    cases recip with
    | true =>
      rw [if_pos rfl] at h
      exact List.mem_of_find?_eq_some h
    | false =>
      rw [if_neg (by simp)] at h
      exact List.mem_of_find?_eq_some h

/-- Full behaviour of one resolution group: for a nonempty group the kept
candidate exists, belongs to the group, optimizes the weight in the
direction selected by `reciprocal_weight`, and is the first element of
the group carrying its weight. -/
theorem resolveGroup_spec {recip : Bool} {g : List Candidate} (h : g ≠ []) :
    ∃ c, resolveGroup recip g = some c ∧ c ∈ g ∧
      (∀ d ∈ g, if recip then c.weight ≤ d.weight else d.weight ≤ c.weight) ∧
      g.find? (fun d => d.weight == c.weight) = some c := by
  match g with
  | [] => exact absurd rfl h
  | [c₁] =>
    refine ⟨c₁, rfl, List.mem_singleton_self _, ?_, ?_⟩
    · intro d hd
      rw [List.mem_singleton] at hd
      subst hd
      cases recip <;> simp
    · simp [List.find?]
  | c₁ :: c₂ :: t =>
    have hr : ∀ r : Bool, resolveGroup r (c₁ :: c₂ :: t) =
        if r then
          (c₁ :: c₂ :: t).find? (fun d => d.weight == minWeight (c₁ :: c₂ :: t))
        else
          (c₁ :: c₂ :: t).find? (fun d => d.weight == maxWeight (c₁ :: c₂ :: t)) :=
      fun _ => rfl
    cases recip with
    | true =>
      have hne : c₁ :: c₂ :: t ≠ [] := by simp
      obtain ⟨d₀, hd₀, hEq⟩ := minWeight_attained hne
      have hsome : ((c₁ :: c₂ :: t).find?
          (fun c => c.weight == minWeight (c₁ :: c₂ :: t))).isSome :=
        List.find?_isSome.mpr ⟨d₀, hd₀, by simp [hEq]⟩
      obtain ⟨c, hc⟩ := Option.isSome_iff_exists.mp hsome
      have hcmem := List.mem_of_find?_eq_some hc
      have hcw : c.weight = minWeight (c₁ :: c₂ :: t) := by
        simpa using List.find?_some hc
      refine ⟨c, ?_, hcmem, ?_, ?_⟩
      · rw [hr true, if_pos rfl]
        exact hc
      · intro d hd
        rw [if_pos rfl, hcw]
        exact minWeight_le hd
      · rw [hcw]
        exact hc
    | false =>
      have hne : c₁ :: c₂ :: t ≠ [] := by simp
      obtain ⟨d₀, hd₀, hEq⟩ := maxWeight_attained hne
      have hsome : ((c₁ :: c₂ :: t).find?
          (fun c => c.weight == maxWeight (c₁ :: c₂ :: t))).isSome :=
        List.find?_isSome.mpr ⟨d₀, hd₀, by simp [hEq]⟩
      obtain ⟨c, hc⟩ := Option.isSome_iff_exists.mp hsome
      have hcmem := List.mem_of_find?_eq_some hc
      have hcw : c.weight = maxWeight (c₁ :: c₂ :: t) := by
        simpa using List.find?_some hc
      refine ⟨c, ?_, hcmem, ?_, ?_⟩
      · rw [hr false]
        simpa using hc
      · intro d hd
        rw [if_neg (by simp), hcw]
        exact maxWeight_ge hd
      · rw [hcw]
        exact hc

theorem filter_key_filterMap_eq_nil {f : String × String → Option Candidate}
    (hf : ∀ k' c, f k' = some c → c.key = k') {ks : List (String × String)}
    {k : String × String} (hk : k ∉ ks) :
    ((ks.filterMap f).filter (fun c => c.key = k)) = [] := by
  induction ks with
  | nil => rfl
  | cons k' ks ih =>
    have hk2 : k ∉ ks := fun h => hk (List.mem_cons_of_mem _ h)
    have hne : k' ≠ k := fun h => hk (h ▸ List.mem_cons_self _ _)
    cases hres : f k' with
    | none => simpa [List.filterMap_cons, hres] using ih hk2
    | some c =>
      have hkey : c.key = k' := hf _ _ hres
      simp [List.filterMap_cons, hres, List.filter_cons, hkey, hne, ih hk2]

theorem filter_key_filterMap_eq_singleton
    {f : String × String → Option Candidate}
    (hf : ∀ k' c, f k' = some c → c.key = k') {ks : List (String × String)}
    (hnd : ks.Nodup) {k : String × String} (hk : k ∈ ks) {c : Candidate}
    (hfc : f k = some c) :
    ((ks.filterMap f).filter (fun d => d.key = k)) = [c] := by
  induction ks with
  | nil => cases hk
  | cons k' ks ih =>
    rcases List.mem_cons.mp hk with rfl | hk2
    · have hnotin : k ∉ ks := (List.nodup_cons.mp hnd).1
      have hkey : c.key = k := hf _ _ hfc
      simp [List.filterMap_cons, hfc, List.filter_cons, hkey,
        filter_key_filterMap_eq_nil hf hnotin]
    · have hne : k' ≠ k := by
        rintro rfl
        exact (List.nodup_cons.mp hnd).1 hk2
      cases hres : f k' with
      | none =>
        simpa [List.filterMap_cons, hres] using ih (List.nodup_cons.mp hnd).2 hk2
      | some c' =>
        have hkey : c'.key = k' := hf _ _ hres
        simp [List.filterMap_cons, hres, List.filter_cons, hkey, hne,
          ih (List.nodup_cons.mp hnd).2 hk2]

theorem resolveGroup_key {recip : Bool} {cs : List Candidate}
    {k : String × String} {c : Candidate}
    (h : resolveGroup recip (groupOf cs k) = some c) : c.key = k :=
  (mem_groupOf (resolveGroup_mem h)).2

/-! ## Lemmas about candidate derivation -/

theorem mem_candidatesOver {recip : Bool} {met : String}
    {srcs sinks : List Entry} {c : Candidate} :
    c ∈ candidatesOver recip met srcs sinks ↔
      ∃ s ∈ srcs, ∃ t ∈ sinks,
        c = Candidate.mk s.rxn t.rxn (lookupWeight recip srcs s.rxn) met := by
  unfold candidatesOver
  simp only [List.mem_flatten, List.mem_map]
  constructor
  · rintro ⟨l, ⟨s, hs, rfl⟩, hc⟩
    obtain ⟨t, ht, rfl⟩ := List.mem_map.mp hc
    exact ⟨s, hs, t, ht, rfl⟩
  · rintro ⟨s, hs, t, ht, rfl⟩
    exact ⟨_, ⟨s, hs, rfl⟩, List.mem_map_of_mem _ ht⟩

theorem disjoint_filter_map_rxn {g : List Row} (h : (g.map Row.rxn).Nodup)
    {p q : Row → Bool} (hpq : ∀ r, ¬(p r = true ∧ q r = true)) :
    List.Disjoint ((g.filter p).map Row.rxn) ((g.filter q).map Row.rxn) := by
  intro x hx hy
  obtain ⟨r₁, hr₁, hx₁⟩ := List.mem_map.mp hx
  obtain ⟨r₂, hr₂, hx₂⟩ := List.mem_map.mp hy
  rw [List.mem_filter] at hr₁ hr₂
  have heq : r₁ = r₂ :=
    List.inj_on_of_nodup_map h hr₁.1 hr₂.1 (hx₁.trans hx₂.symm)
  subst heq
  exact hpq r₁ ⟨hr₁.2, hr₂.2⟩

theorem filter_map_rxn_nodup {g : List Row} (h : (g.map Row.rxn).Nodup)
    (p : Row → Bool) : ((g.filter p).map Row.rxn).Nodup :=
  ((List.filter_sublist g).map Row.rxn).nodup h

/-- The reaction-id column of `source_df` has no duplicates when the
group's rows do: the three source branches select rows by mutually
exclusive conditions. -/
theorem sourceEntries_rxn_nodup {g : List Row} (h : (g.map Row.rxn).Nodup) :
    ((sourceEntries g).map Entry.rxn).Nodup := by
  have hrw : (sourceEntries g).map Entry.rxn =
      (g.filter (fun r => !r.reversible && 0 < r.coefficient)).map Row.rxn ++
      ((g.filter (fun r => r.reversible && 0 < r.coefficient && 0 < r.fluxMax)).map
          Row.rxn ++
        (g.filter (fun r => r.reversible && r.coefficient < 0 && r.fluxMin < 0)).map
          Row.rxn) := by
    simp only [sourceEntries, sourcesIrreversible, reversibleSourcePos,
      reversibleSourceNeg, List.map_append, List.map_map, List.append_assoc]
    rfl
  rw [hrw]
  refine List.nodup_append.mpr ⟨filter_map_rxn_nodup h _, ?_, ?_⟩
  · refine List.nodup_append.mpr ⟨filter_map_rxn_nodup h _,
      filter_map_rxn_nodup h _, ?_⟩
    exact disjoint_filter_map_rxn h (fun r hc => by
      simp only [Bool.and_eq_true, decide_eq_true_eq] at hc
      obtain ⟨⟨⟨-, h₁⟩, -⟩, ⟨⟨-, h₂⟩, -⟩⟩ := hc
      exact lt_irrefl (0 : Rat) (lt_trans h₁ h₂))
  · intro x hx hy
    rcases List.mem_append.mp hy with hy' | hy'
    · exact disjoint_filter_map_rxn h (fun r hc => by
        simp only [Bool.and_eq_true, Bool.not_eq_true', decide_eq_true_eq] at hc
        obtain ⟨⟨h₁, -⟩, ⟨⟨h₂, -⟩, -⟩⟩ := hc
        rw [h₁] at h₂
        exact Bool.false_ne_true h₂) hx hy'
    · exact disjoint_filter_map_rxn h (fun r hc => by
        simp only [Bool.and_eq_true, Bool.not_eq_true', decide_eq_true_eq] at hc
        obtain ⟨⟨h₁, -⟩, ⟨⟨h₂, -⟩, -⟩⟩ := hc
        rw [h₁] at h₂
        exact Bool.false_ne_true h₂) hx hy'

theorem find?_rxn_self {l : List Entry} (h : (l.map Entry.rxn).Nodup)
    {s : Entry} (hs : s ∈ l) :
    l.find? (fun e => e.rxn == s.rxn) = some s := by
  induction l with
  | nil => cases hs
  | cons e l ih =>
    rw [List.map_cons, List.nodup_cons] at h
    rcases List.mem_cons.mp hs with rfl | hs'
    · simp [List.find?]
    · have hb : (e.rxn == s.rxn) = false := by
        rw [beq_eq_false_iff_ne]
        intro hEq
        have hmem : s.rxn ∈ l.map Entry.rxn := List.mem_map_of_mem _ hs'
        rw [← hEq] at hmem
        exact h.1 hmem
      simp only [List.find?, hb, cond_false]
      exact ih h.2 hs'

theorem lookupWeight_eq {recip : Bool} {srcs : List Entry} {s : Entry}
    (h : srcs.find? (fun e => e.rxn == s.rxn) = some s) :
    lookupWeight recip srcs s.rxn =
      if recip then 1 / (s.flux * s.coefficient + eps)
      else s.flux * s.coefficient := by
  simp only [lookupWeight, h]

/-! ## Error propagation through `buildRows` -/

theorem traverseE_error_unique {α β : Type} (f : α → Except Err β) (e₀ : Err)
    (hf : ∀ a e, f a = Except.error e → e = e₀) :
    ∀ (l : List α) (e : Err), traverseE f l = Except.error e → e = e₀ := by
  intro l
  induction l with
  | nil => intro e h; cases h
  | cons a as ih =>
    intro e h
    unfold traverseE at h
    cases hfa : f a with
    | error e' =>
      rw [hfa] at h
      simp only [] at h
      cases h
      exact hf a _ hfa
    | ok b =>
      rw [hfa] at h
      simp only [] at h
      cases hrest : traverseE f as with
      | error e'' =>
        rw [hrest] at h
        simp only [] at h
        cases h
        exact ih _ hrest
      | ok bs =>
        rw [hrest] at h
        simp only [] at h
        cases h

theorem rowsForReaction_error {fva : Fva} {r : Reaction} {e : Err}
    (h : rowsForReaction fva r = Except.error e) : e = Err.keyError r.id := by
  refine traverseE_error_unique _ (Err.keyError r.id) ?_ r.mets e h
  intro mc e' h'
  cases hl : fvaLookup fva r.id with
  | some fl => rw [hl] at h'; cases h'
  | none => rw [hl] at h'; cases h'; rfl

theorem rowsForReaction_missing {fva : Fva} {r : Reaction} (hm : r.mets ≠ [])
    (hl : fvaLookup fva r.id = none) :
    rowsForReaction fva r = Except.error (Err.keyError r.id) := by
  unfold rowsForReaction
  cases hmets : r.mets with
  | nil => exact absurd hmets hm
  | cons mc mcs =>
    unfold traverseE
    rw [hl]

theorem traverse_rows_missing (fva : Fva) (rs : List Reaction)
    (h : ∃ r ∈ rs, r.mets ≠ [] ∧ fvaLookup fva r.id = none) :
    ∃ s, traverseE (rowsForReaction fva) rs = Except.error (Err.keyError s) := by
  induction rs with
  | nil =>
    obtain ⟨r, hr, -⟩ := h
    cases hr
  | cons r₀ rs ih =>
    obtain ⟨r, hr, hm, hl⟩ := h
    unfold traverseE
    cases hf : rowsForReaction fva r₀ with
    | error e =>
      exact ⟨r₀.id, by rw [rowsForReaction_error hf]⟩
    | ok bs =>
      rcases List.mem_cons.mp hr with rfl | hr'
      · rw [rowsForReaction_missing hm hl] at hf
        cases hf
      · obtain ⟨s, hs⟩ := ih ⟨r, hr', hm, hl⟩
        exact ⟨s, by rw [hs]⟩

theorem buildRows_missing {model : Model} {fva : Fva}
    (h : ∃ r ∈ model.reactions, r.mets ≠ [] ∧ fvaLookup fva r.id = none) :
    ∃ s, buildRows model fva = Except.error (Err.keyError s) := by
  obtain ⟨s, hs⟩ := traverse_rows_missing fva model.reactions h
  exact ⟨s, by unfold buildRows; rw [hs]; rfl⟩

/-! ## Directedness is preserved by graph construction -/

theorem addNode_directed (G : Graph) (n : String) :
    (G.addNode n).directed = G.directed := by
  unfold Graph.addNode
  split <;> rfl

theorem addEdge_directed (G : Graph) (u v : String) (w : Option Rat)
    (m : String) : (G.addEdge u v w m).directed = G.directed := by
  simp only [Graph.addEdge]
  split <;> simp [addNode_directed]

theorem addUEdges_directed (G : Graph) (es : List UEdge) :
    (G.addUEdges es).directed = G.directed := by
  induction es generalizing G with
  | nil => rfl
  | cons e es ih => rw [Graph.addUEdges, List.foldl_cons, ← Graph.addUEdges, ih,
      addEdge_directed]

theorem addDEdges_directed (G : Graph) (es : List Candidate) :
    (G.addDEdges es).directed = G.directed := by
  induction es generalizing G with
  | nil => rfl
  | cons e es ih => rw [Graph.addDEdges, List.foldl_cons, ← Graph.addDEdges, ih,
      addEdge_directed]

theorem foldl_addNode_directed (ns : List Reaction) (G : Graph) :
    (ns.foldl (fun G r => G.addNode r.id) G).directed = G.directed := by
  induction ns generalizing G with
  | nil => rfl
  | cons n ns ih => rw [List.foldl_cons, ih, addNode_directed]

theorem createMetabolicNetwork_directed (model : Model) :
    (createMetabolicNetwork model).directed = false := by
  unfold createMetabolicNetwork
  rw [addUEdges_directed, foldl_addNode_directed]
  rfl

/-! ## Graph well-formedness and node-link round-tripping -/

/-- The invariant every graph assembled through `addNode`/`addEdge`
satisfies: no duplicate nodes, edge endpoints are nodes, and no two
stored edges share a key (up to orientation when undirected). -/
def Graph.wellFormed (G : Graph) : Prop :=
  G.nodes.Nodup ∧
  (∀ e ∈ G.edges, e.source ∈ G.nodes ∧ e.target ∈ G.nodes) ∧
  G.edges.Pairwise (fun e f => edgeMatches G.directed f e.source e.target = false)

instance (G : Graph) : Decidable G.wellFormed := by
  unfold Graph.wellFormed
  infer_instance

theorem edgeMatches_iff {d : Bool} {e : Edge} {u v : String} :
    edgeMatches d e u v = true ↔
      (e.source = u ∧ e.target = v) ∨
        (d = false ∧ e.source = v ∧ e.target = u) := by
  unfold edgeMatches
  cases d <;> simp [and_assoc]

/-- Whether two stored edges carry the same key; symmetric. -/
theorem edgeMatches_comm {d : Bool} {e f : Edge} :
    edgeMatches d f e.source e.target = edgeMatches d e f.source f.target := by
  cases hd : edgeMatches d f e.source e.target with
  | true =>
    rcases edgeMatches_iff.mp hd with ⟨h1, h2⟩ | ⟨hdf, h1, h2⟩
    · exact (edgeMatches_iff.mpr (Or.inl ⟨h1.symm, h2.symm⟩)).symm
    · exact (edgeMatches_iff.mpr (Or.inr ⟨hdf, h2.symm, h1.symm⟩)).symm
  | false =>
    cases he : edgeMatches d e f.source f.target with
    | false => rfl
    | true =>
      exfalso
      rcases edgeMatches_iff.mp he with ⟨h1, h2⟩ | ⟨hdf, h1, h2⟩
      · rw [edgeMatches_iff.mpr (Or.inl ⟨h1.symm, h2.symm⟩)] at hd
        cases hd
      · rw [edgeMatches_iff.mpr (Or.inr ⟨hdf, h2.symm, h1.symm⟩)] at hd
        cases hd

theorem mem_addNode_iff {G : Graph} {n x : String} :
    x ∈ (G.addNode n).nodes ↔ x ∈ G.nodes ∨ x = n := by
  unfold Graph.addNode
  split
  · rename_i h
    constructor
    · exact Or.inl
    · rintro (hx | rfl)
      · exact hx
      · exact h
  · simp [List.mem_append]

theorem addNode_edges (G : Graph) (n : String) :
    (G.addNode n).edges = G.edges := by
  unfold Graph.addNode
  split <;> rfl

theorem addNode_wf {G : Graph} (h : G.wellFormed) (n : String) :
    (G.addNode n).wellFormed := by
  obtain ⟨h1, h2, h3⟩ := h
  refine ⟨?_, ?_, ?_⟩
  · unfold Graph.addNode
    split
    · exact h1
    · rename_i hn
      refine List.nodup_append.mpr ⟨h1, List.nodup_singleton _, ?_⟩
      intro a ha hb
      rw [List.mem_singleton] at hb
      exact hn (hb ▸ ha)
  · intro e he
    rw [addNode_edges] at he
    exact ⟨mem_addNode_iff.mpr (Or.inl (h2 e he).1),
      mem_addNode_iff.mpr (Or.inl (h2 e he).2)⟩
  · rw [addNode_edges, addNode_directed]
    exact h3

/-- The attribute update applied by `add_edge` to an existing edge keeps
its endpoints. -/
theorem edgeMatches_update {d : Bool} {e : Edge} {w : Option Rat}
    {m : String} (u v x y : String) :
    edgeMatches d (if edgeMatches d e u v then
        { e with weight := w, metabolite := m } else e) x y =
      edgeMatches d e x y := by
  split <;> rfl

theorem update_source {d : Bool} {e : Edge} {w : Option Rat} {m : String}
    (u v : String) :
    (if edgeMatches d e u v then
        { e with weight := w, metabolite := m } else e).source = e.source := by
  split <;> rfl

theorem update_target {d : Bool} {e : Edge} {w : Option Rat} {m : String}
    (u v : String) :
    (if edgeMatches d e u v then
        { e with weight := w, metabolite := m } else e).target = e.target := by
  split <;> rfl

theorem addEdge_wf {G : Graph} (h : G.wellFormed) (u v : String)
    (w : Option Rat) (m : String) : (G.addEdge u v w m).wellFormed := by
  have h₂ : ((G.addNode u).addNode v).wellFormed := addNode_wf (addNode_wf h u) v
  have hu : u ∈ ((G.addNode u).addNode v).nodes :=
    mem_addNode_iff.mpr (Or.inl (mem_addNode_iff.mpr (Or.inr rfl)))
  have hv : v ∈ ((G.addNode u).addNode v).nodes := mem_addNode_iff.mpr (Or.inr rfl)
  obtain ⟨h1, h2, h3⟩ := h₂
  simp only [Graph.addEdge]
  split
  · refine ⟨h1, ?_, ?_⟩
    · intro e he
      obtain ⟨f, hf, rfl⟩ := List.mem_map.mp he
      rw [update_source u v, update_target u v]
      exact h2 f hf
    · refine List.Pairwise.map _ ?_ h3
      intro a b hab
      rw [update_source u v, update_target u v, edgeMatches_update u v]
      exact hab
  · rename_i hany
    rw [Bool.not_eq_true, List.any_eq_false] at hany
    refine ⟨h1, ?_, ?_⟩
    · intro e he
      rcases List.mem_append.mp he with he' | he'
      · exact h2 e he'
      · rw [List.mem_singleton] at he'
        subst he'
        exact ⟨hu, hv⟩
    · refine List.pairwise_append.mpr ⟨h3, List.pairwise_singleton _ _, ?_⟩
      intro a ha b hb
      rw [List.mem_singleton] at hb
      subst hb
      have hm := hany a ha
      rw [Bool.not_eq_true] at hm
      rw [edgeMatches_comm]
      exact hm

theorem graph_empty_wf (d : Bool) : (Graph.empty d).wellFormed := by
  refine ⟨List.nodup_nil, ?_, List.Pairwise.nil⟩
  intro e he
  cases he

theorem foldl_addNode_wf {G : Graph} (h : G.wellFormed) (ns : List String) :
    (ns.foldl (fun G n => G.addNode n) G).wellFormed := by
  induction ns generalizing G with
  | nil => exact h
  | cons n ns ih => exact ih (addNode_wf h n)

theorem foldl_addNode_rxn_wf {G : Graph} (h : G.wellFormed)
    (rs : List Reaction) :
    (rs.foldl (fun G r => G.addNode r.id) G).wellFormed := by
  induction rs generalizing G with
  | nil => exact h
  | cons r rs ih => exact ih (addNode_wf h r.id)

theorem addUEdges_wf {G : Graph} (h : G.wellFormed) (es : List UEdge) :
    (G.addUEdges es).wellFormed := by
  induction es generalizing G with
  | nil => exact h
  | cons e es ih =>
    rw [Graph.addUEdges, List.foldl_cons, ← Graph.addUEdges]
    exact ih (addEdge_wf h _ _ _ _)

theorem addDEdges_wf {G : Graph} (h : G.wellFormed) (es : List Candidate) :
    (G.addDEdges es).wellFormed := by
  induction es generalizing G with
  | nil => exact h
  | cons e es ih =>
    rw [Graph.addDEdges, List.foldl_cons, ← Graph.addDEdges]
    exact ih (addEdge_wf h _ _ _ _)

theorem createMetabolicNetwork_wf (model : Model) :
    (createMetabolicNetwork model).wellFormed :=
  addUEdges_wf (foldl_addNode_rxn_wf (graph_empty_wf false) _) _

theorem except_map_ok {α β : Type} {f : α → β} {x : Except Err α} {y : β}
    (h : x.map f = Except.ok y) : ∃ a, x = Except.ok a ∧ y = f a := by
  cases x with
  | error e => cases h
  | ok a =>
    refine ⟨a, rfl, ?_⟩
    cases h
    rfl

theorem createDirectedMetabolicNetwork_wf {recip : Bool} {model : Model}
    {fva : Fva} {G : Graph}
    (h : createDirectedMetabolicNetwork recip model fva = Except.ok G) :
    G.wellFormed := by
  obtain ⟨es, -, rfl⟩ := except_map_ok h
  exact addDEdges_wf (foldl_addNode_rxn_wf (graph_empty_wf true) _) _

theorem foldl_addNode_spec (ns : List String) (G : Graph)
    (h : (G.nodes ++ ns).Nodup) :
    ns.foldl (fun G n => G.addNode n) G = { G with nodes := G.nodes ++ ns } := by
  induction ns generalizing G with
  | nil => simp
  | cons n ns ih =>
    have hn : n ∉ G.nodes := fun hmem =>
      (List.nodup_append.mp h).2.2 hmem (List.mem_cons_self _ _)
    rw [List.foldl_cons]
    have hstep : G.addNode n = { G with nodes := G.nodes ++ [n] } := by
      unfold Graph.addNode
      rw [if_neg hn]
    rw [hstep, ih _ (by simpa [List.append_assoc] using h)]
    simp [List.append_assoc]

theorem foldl_addEdge_spec (es : List Edge) (G : Graph)
    (hend : ∀ e ∈ es, e.source ∈ G.nodes ∧ e.target ∈ G.nodes)
    (hdis : ∀ e ∈ es, ∀ f ∈ G.edges,
      edgeMatches G.directed f e.source e.target = false)
    (hpw : es.Pairwise
      (fun e f => edgeMatches G.directed f e.source e.target = false)) :
    es.foldl (fun G e => G.addEdge e.source e.target e.weight e.metabolite) G =
      { G with edges := G.edges ++ es } := by
  induction es generalizing G with
  | nil => simp
  | cons e es ih =>
    have hu : e.source ∈ G.nodes := (hend e (List.mem_cons_self _ _)).1
    have hv : e.target ∈ G.nodes := (hend e (List.mem_cons_self _ _)).2
    have hN1 : G.addNode e.source = G := by
      unfold Graph.addNode
      rw [if_pos hu]
    have hN2 : G.addNode e.target = G := by
      unfold Graph.addNode
      rw [if_pos hv]
    have hany : (G.edges.any
        (fun f => edgeMatches G.directed f e.source e.target)) = false := by
      rw [List.any_eq_false]
      intro f hf
      rw [hdis e (List.mem_cons_self _ _) f hf]
      exact Bool.false_ne_true
    have hstep : G.addEdge e.source e.target e.weight e.metabolite =
        { G with edges := G.edges ++ [e] } := by
      simp only [Graph.addEdge, hN1, hN2, hany]
      rfl
    rw [List.foldl_cons, hstep,
      ih { G with edges := G.edges ++ [e] } ?hend ?hdis ?hpw]
    · simp [List.append_assoc]
    case hend => exact fun e' he' => hend e' (List.mem_cons_of_mem _ he')
    case hdis =>
      intro e' he' f hf
      rcases List.mem_append.mp hf with hf' | hf'
      · exact hdis e' (List.mem_cons_of_mem _ he') f hf'
      · rw [List.mem_singleton] at hf'
        subst hf'
        have := (List.pairwise_cons.mp hpw).1 e' he'
        rw [edgeMatches_comm]
        exact this
    case hpw => exact (List.pairwise_cons.mp hpw).2

/-- Round-trip of node-link persistence on any well-formed graph: the
caller's `directed` argument is immaterial because `node_link_graph`
takes the flag from the document. -/
theorem readNetwork_writeNetwork {G : Graph} (h : G.wellFormed) (d : Bool) :
    readNetwork (writeNetwork G) d = G := by
  obtain ⟨h1, h2, h3⟩ := h
  unfold readNetwork writeNetwork nodeLinkGraph nodeLinkData Graph.empty
  rw [foldl_addNode_spec _ _ (by simpa using h1)]
  rw [foldl_addEdge_spec _ _ (by simpa using h2) (by simp) (by simpa using h3)]
  simp only [List.nil_append]

/-! ## Node-set lemmas -/

theorem addNode_of_mem {G : Graph} {n : String} (h : n ∈ G.nodes) :
    G.addNode n = G := by
  unfold Graph.addNode
  rw [if_pos h]

theorem addEdge_nodes_of_mem {G : Graph} {u v : String} (hu : u ∈ G.nodes)
    (hv : v ∈ G.nodes) (w : Option Rat) (m : String) :
    (G.addEdge u v w m).nodes = G.nodes := by
  simp only [Graph.addEdge, addNode_of_mem hu, addNode_of_mem hv]
  split <;> rfl

theorem addUEdges_nodes_of_mem {G : Graph} {es : List UEdge}
    (h : ∀ e ∈ es, e.fst ∈ G.nodes ∧ e.snd ∈ G.nodes) :
    (G.addUEdges es).nodes = G.nodes := by
  induction es generalizing G with
  | nil => rfl
  | cons e es ih =>
    rw [Graph.addUEdges, List.foldl_cons, ← Graph.addUEdges]
    have he := h e (List.mem_cons_self _ _)
    have hnodes := addEdge_nodes_of_mem he.1 he.2 none e.metabolite
    rw [ih, hnodes]
    intro e' he'
    rw [hnodes]
    exact h e' (List.mem_cons_of_mem _ he')

theorem addDEdges_nodes_of_mem {G : Graph} {es : List Candidate}
    (h : ∀ e ∈ es, e.source ∈ G.nodes ∧ e.sink ∈ G.nodes) :
    (G.addDEdges es).nodes = G.nodes := by
  induction es generalizing G with
  | nil => rfl
  | cons e es ih =>
    rw [Graph.addDEdges, List.foldl_cons, ← Graph.addDEdges]
    have he := h e (List.mem_cons_self _ _)
    have hnodes := addEdge_nodes_of_mem he.1 he.2 (some e.weight) e.metabolite
    rw [ih, hnodes]
    intro e' he'
    rw [hnodes]
    exact h e' (List.mem_cons_of_mem _ he')

theorem mem_foldl_addNode_rxn {rs : List Reaction} {G : Graph} {x : String} :
    x ∈ (rs.foldl (fun G r => G.addNode r.id) G).nodes ↔
      x ∈ G.nodes ∨ x ∈ rs.map Reaction.id := by
  induction rs generalizing G with
  | nil => simp
  | cons r rs ih =>
    rw [List.foldl_cons, ih, mem_addNode_iff]
    simp [or_assoc]

theorem mem_combinations2 {α : Type} {l : List α} {p : α × α}
    (h : p ∈ combinations2 l) : p.1 ∈ l ∧ p.2 ∈ l := by
  induction l with
  | nil => cases h
  | cons x xs ih =>
    unfold combinations2 at h
    rcases List.mem_append.mp h with h' | h'
    · obtain ⟨y, hy, rfl⟩ := List.mem_map.mp h'
      exact ⟨List.mem_cons_self _ _, List.mem_cons_of_mem _ hy⟩
    · exact ⟨List.mem_cons_of_mem _ (ih h').1, List.mem_cons_of_mem _ (ih h').2⟩

theorem stoichPairs_fst_mem {model : Model} {p : String × String}
    (h : p ∈ stoichPairs model) : p.1 ∈ model.reactions.map Reaction.id := by
  unfold stoichPairs at h
  rw [List.mem_flatten] at h
  obtain ⟨l, hl, hp⟩ := h
  obtain ⟨r, hr, rfl⟩ := List.mem_map.mp hl
  obtain ⟨mc, hmc, rfl⟩ := List.mem_map.mp hp
  exact List.mem_map_of_mem _ hr

theorem metGroupsU_mem_ids {model : Model} {m : String} {rs : List String}
    (h : (m, rs) ∈ metGroupsU model) {a : String} (ha : a ∈ rs) :
    a ∈ model.reactions.map Reaction.id := by
  unfold metGroupsU at h
  obtain ⟨m', hm', heq⟩ := List.mem_map.mp h
  cases heq
  obtain ⟨p, hp, rfl⟩ := List.mem_map.mp ha
  exact stoichPairs_fst_mem (List.mem_of_mem_filter hp)

theorem findEdgesFromModel_endpoints {model : Model} {e : UEdge}
    (h : e ∈ findEdgesFromModel model) :
    e.fst ∈ model.reactions.map Reaction.id ∧
      e.snd ∈ model.reactions.map Reaction.id := by
  unfold findEdgesFromModel at h
  rw [List.mem_flatten] at h
  obtain ⟨l, hl, he⟩ := h
  obtain ⟨⟨m, rs⟩, hg, rfl⟩ := List.mem_map.mp hl
  obtain ⟨p, hp, rfl⟩ := List.mem_map.mp he
  have hmem := mem_combinations2 hp
  exact ⟨metGroupsU_mem_ids hg hmem.1, metGroupsU_mem_ids hg hmem.2⟩

theorem mem_resolveEdges_sub {recip : Bool} {cs : List Candidate}
    {c : Candidate} (h : c ∈ resolveEdges recip cs) : c ∈ cs := by
  unfold resolveEdges at h
  obtain ⟨k, -, hk⟩ := List.mem_filterMap.mp h
  exact (mem_groupOf (resolveGroup_mem hk)).1

theorem entry_rxn_mem_sourceEntries {g : List Row} {e : Entry}
    (h : e ∈ sourceEntries g) : e.rxn ∈ g.map Row.rxn := by
  unfold sourceEntries sourcesIrreversible reversibleSourcePos
    reversibleSourceNeg at h
  rcases List.mem_append.mp h with h' | h₃
  · rcases List.mem_append.mp h' with h₁ | h₂
    · obtain ⟨r, hr, rfl⟩ := List.mem_map.mp h₁
      exact List.mem_map_of_mem _ (List.mem_of_mem_filter hr)
    · obtain ⟨r, hr, rfl⟩ := List.mem_map.mp h₂
      exact List.mem_map_of_mem _ (List.mem_of_mem_filter hr)
  · obtain ⟨r, hr, rfl⟩ := List.mem_map.mp h₃
    exact List.mem_map_of_mem _ (List.mem_of_mem_filter hr)

theorem entry_rxn_mem_sinkEntries {g : List Row} {e : Entry}
    (h : e ∈ sinkEntries g) : e.rxn ∈ g.map Row.rxn := by
  unfold sinkEntries sinksIrreversible reversibleSinkPos
    reversibleSinkNeg at h
  rcases List.mem_append.mp h with h' | h₃
  · rcases List.mem_append.mp h' with h₁ | h₂
    · obtain ⟨r, hr, rfl⟩ := List.mem_map.mp h₁
      exact List.mem_map_of_mem _ (List.mem_of_mem_filter hr)
    · obtain ⟨r, hr, rfl⟩ := List.mem_map.mp h₂
      exact List.mem_map_of_mem _ (List.mem_of_mem_filter hr)
  · obtain ⟨r, hr, rfl⟩ := List.mem_map.mp h₃
    exact List.mem_map_of_mem _ (List.mem_of_mem_filter hr)

theorem mem_metGroups_rows {rows : List Row} {m : String} {g : List Row}
    (h : (m, g) ∈ metGroups rows) {r : Row} (hr : r ∈ g) : r ∈ rows := by
  unfold metGroups at h
  obtain ⟨m', hm', heq⟩ := List.mem_map.mp h
  cases heq
  exact List.mem_of_mem_filter hr

theorem allCandidates_endpoints {recip : Bool} {rows : List Row}
    {c : Candidate} (h : c ∈ allCandidates recip rows) :
    c.source ∈ rows.map Row.rxn ∧ c.sink ∈ rows.map Row.rxn := by
  unfold allCandidates at h
  rw [List.mem_flatten] at h
  obtain ⟨l, hl, hc⟩ := h
  obtain ⟨⟨m, g⟩, hg, rfl⟩ := List.mem_map.mp hl
  obtain ⟨s, hs, t, ht, rfl⟩ := mem_candidatesOver.mp hc
  constructor
  · obtain ⟨r, hr, hrxn⟩ := List.mem_map.mp (entry_rxn_mem_sourceEntries hs)
    exact hrxn ▸ List.mem_map_of_mem _ (mem_metGroups_rows hg hr)
  · obtain ⟨r, hr, hrxn⟩ := List.mem_map.mp (entry_rxn_mem_sinkEntries ht)
    exact hrxn ▸ List.mem_map_of_mem _ (mem_metGroups_rows hg hr)

theorem traverseE_ok_forall {α β : Type} {f : α → Except Err β} {l : List α}
    {bs : List β} (h : traverseE f l = Except.ok bs) (P : β → Prop)
    (hP : ∀ a ∈ l, ∀ b, f a = Except.ok b → P b) : ∀ b ∈ bs, P b := by
  induction l generalizing bs with
  | nil =>
    cases h
    intro b hb
    cases hb
  | cons a as ih =>
    unfold traverseE at h
    cases hfa : f a with
    | error e => rw [hfa] at h; cases h
    | ok b₀ =>
      rw [hfa] at h
      cases hrest : traverseE f as with
      | error e => rw [hrest] at h; cases h
      | ok bs₀ =>
        rw [hrest] at h
        cases h
        intro b hb
        rcases List.mem_cons.mp hb with rfl | hb'
        · exact hP a (List.mem_cons_self _ _) b hfa
        · exact ih hrest (fun a' ha' => hP a' (List.mem_cons_of_mem _ ha')) b hb'

theorem rowsForReaction_rxn {fva : Fva} {r : Reaction} {rs : List Row}
    (h : rowsForReaction fva r = Except.ok rs) :
    ∀ row ∈ rs, row.rxn = r.id := by
  refine traverseE_ok_forall h _ ?_
  intro mc hmc row hrow
  cases hl : fvaLookup fva r.id with
  | some fl =>
    rw [hl] at hrow
    cases hrow
    rfl
  | none => rw [hl] at hrow; cases hrow

theorem buildRows_rxn_mem {model : Model} {fva : Fva} {rows : List Row}
    (h : buildRows model fva = Except.ok rows) :
    ∀ row ∈ rows, row.rxn ∈ model.reactions.map Reaction.id := by
  unfold buildRows at h
  obtain ⟨rss, hrss, rfl⟩ := except_map_ok h
  intro row hrow
  rw [List.mem_flatten] at hrow
  obtain ⟨rs, hrs, hrow'⟩ := hrow
  have : ∀ rs' ∈ rss, ∀ row' ∈ rs',
      row'.rxn ∈ model.reactions.map Reaction.id := by
    refine traverseE_ok_forall hrss _ ?_
    intro r hr rs' hrs' row' hrow''
    rw [rowsForReaction_rxn hrs' row' hrow'']
    exact List.mem_map_of_mem _ hr
  exact this rs hrs row hrow'

/-! ## Undirected edge multiplicity and annotation -/

/-- Whether an undirected edge tuple connects the (unordered) reaction
pair `{a, b}`. -/
def matchesPair (a b : String) (e : UEdge) : Bool :=
  (e.fst == a && e.snd == b) || (e.fst == b && e.snd == a)

/-- The edges of a graph between `a` and `b` (under its orientation
convention). -/
def edgesBetween (G : Graph) (a b : String) : List Edge :=
  G.edges.filter (fun e => edgeMatches G.directed e a b)

/-- The metabolites shared by reactions `a` and `b`, read off the sorted
metabolite grouping of the undirected derivation: one entry per group
containing both reactions, in sorted metabolite order. -/
def sharedMets (model : Model) (a b : String) : List String :=
  ((metGroupsU model).filter (fun g => a ∈ g.2 ∧ b ∈ g.2)).map Prod.fst

/-- The effect of one undirected edge tuple on the (at most one) stored
edge between `a` and `b`: a matching tuple creates the edge or overwrites
its attributes, leaving the stored orientation alone. -/
def applyU (a b : String) (cur : Option Edge) (e : UEdge) : Option Edge :=
  if matchesPair a b e then
    match cur with
    | none => some ⟨e.fst, e.snd, none, e.metabolite⟩
    | some f => some ⟨f.source, f.target, none, e.metabolite⟩
  else cur

theorem edgeMatches_pair_swap (f : Edge) (a b : String) :
    edgeMatches false f a b = edgeMatches false f b a := by
  unfold edgeMatches
  simp [Bool.or_comm]

theorem edgeMatches_pair_equiv {u v a b : String}
    (hp : (u = a ∧ v = b) ∨ (u = b ∧ v = a)) (f : Edge) :
    edgeMatches false f u v = edgeMatches false f a b := by
  rcases hp with ⟨rfl, rfl⟩ | ⟨rfl, rfl⟩
  · rfl
  · exact edgeMatches_pair_swap f u v

theorem addEdge_edges_aux (G : Graph) (u v : String) (w : Option Rat)
    (m : String) :
    (G.addEdge u v w m).edges =
      (if G.edges.any (fun e => edgeMatches G.directed e u v) then
        G.edges.map (fun e =>
          if edgeMatches G.directed e u v then
            { e with weight := w, metabolite := m }
          else e)
      else G.edges ++ [⟨u, v, w, m⟩]) := by
  simp only [Graph.addEdge, addNode_edges, addNode_directed]
  split <;> rfl

theorem edgesBetween_empty_addEdge {G : Graph} (hd : G.directed = false)
    {a b u v : String} (hp : (u = a ∧ v = b) ∨ (u = b ∧ v = a))
    (h : edgesBetween G a b = []) (w : Option Rat) (m : String) :
    edgesBetween (G.addEdge u v w m) a b = [⟨u, v, w, m⟩] := by
  have hnone : ∀ f ∈ G.edges, edgeMatches G.directed f a b = false := by
    intro f hf
    rw [← Bool.not_eq_true]
    exact List.filter_eq_nil.mp h f hf
  have hany : (G.edges.any (fun e => edgeMatches G.directed e u v)) = false := by
    rw [List.any_eq_false]
    intro f hf
    rw [hd, edgeMatches_pair_equiv hp f, ← hd, hnone f hf]
    exact Bool.false_ne_true
  unfold edgesBetween
  rw [addEdge_edges_aux, hany]
  simp only [if_false, Bool.false_eq_true]
  rw [addEdge_directed, List.filter_append]
  rw [List.filter_eq_nil.mpr (fun f hf => by rw [Bool.not_eq_true]; exact hnone f hf)]
  rw [List.nil_append]
  have hmatch : edgeMatches G.directed ⟨u, v, w, m⟩ a b = true := by
    rw [hd]
    rcases hp with ⟨rfl, rfl⟩ | ⟨rfl, rfl⟩
    · exact edgeMatches_iff.mpr (Or.inl ⟨rfl, rfl⟩)
    · exact edgeMatches_iff.mpr (Or.inr ⟨rfl, rfl, rfl⟩)
  simp [List.filter_cons, hmatch]

theorem edgesBetween_single_addEdge {G : Graph} (hd : G.directed = false)
    {a b u v : String} (hp : (u = a ∧ v = b) ∨ (u = b ∧ v = a))
    {f₀ : Edge} (h : edgesBetween G a b = [f₀]) (w : Option Rat)
    (m : String) :
    edgesBetween (G.addEdge u v w m) a b =
      [⟨f₀.source, f₀.target, w, m⟩] := by
  unfold edgesBetween at h ⊢
  have hf₀ : f₀ ∈ G.edges ∧ edgeMatches G.directed f₀ a b = true := by
    have hm : f₀ ∈ G.edges.filter (fun e => edgeMatches G.directed e a b) := by
      rw [h]
      exact List.mem_singleton_self _
    exact ⟨(List.mem_filter.mp hm).1, (List.mem_filter.mp hm).2⟩
  have hany : (G.edges.any (fun e => edgeMatches G.directed e u v)) = true := by
    rw [List.any_eq_true]
    refine ⟨f₀, hf₀.1, ?_⟩
    rw [hd, edgeMatches_pair_equiv hp f₀, ← hd]
    exact hf₀.2
  rw [addEdge_edges_aux, hany, if_pos rfl, addEdge_directed]
  rw [List.filter_map]
  simp only [Function.comp_def]
  rw [List.filter_congr (fun e _ => edgeMatches_update u v a b)]
  rw [h]
  simp only [List.map_cons, List.map_nil]
  rw [if_pos (by rw [hd, edgeMatches_pair_equiv hp f₀, ← hd]; exact hf₀.2)]

theorem edgesBetween_addEdge_other {G : Graph} (hd : G.directed = false)
    {a b u v : String} (hp : ¬((u = a ∧ v = b) ∨ (u = b ∧ v = a)))
    (w : Option Rat) (m : String) :
    edgesBetween (G.addEdge u v w m) a b = edgesBetween G a b := by
  have hkey : ∀ f : Edge, edgeMatches G.directed f a b = true →
      edgeMatches G.directed f u v = false := by
    intro f hf
    rw [hd] at hf ⊢
    rw [← Bool.not_eq_true]
    intro hf'
    rcases edgeMatches_iff.mp hf with ⟨h1, h2⟩ | ⟨-, h1, h2⟩ <;>
      rcases edgeMatches_iff.mp hf' with ⟨h3, h4⟩ | ⟨-, h3, h4⟩
    · exact hp (Or.inl ⟨h3.symm.trans h1, h4.symm.trans h2⟩)
    · exact hp (Or.inr ⟨h4.symm.trans h2, h3.symm.trans h1⟩)
    · exact hp (Or.inr ⟨h3.symm.trans h1, h4.symm.trans h2⟩)
    · exact hp (Or.inl ⟨h4.symm.trans h2, h3.symm.trans h1⟩)
  unfold edgesBetween
  rw [addEdge_edges_aux, addEdge_directed]
  split
  · rw [List.filter_map]
    simp only [Function.comp_def]
    rw [List.filter_congr (fun e _ => edgeMatches_update u v a b)]
    have hid : ∀ e ∈ G.edges.filter (fun e => edgeMatches G.directed e a b),
        (if edgeMatches G.directed e u v then
          ({ e with weight := w, metabolite := m } : Edge) else e) = e := by
      intro e he
      rw [if_neg]
      rw [hkey e (List.mem_filter.mp he).2]
      exact Bool.false_ne_true
    rw [List.map_congr_left hid, List.map_id']
  · rw [List.filter_append]
    have hnew : edgeMatches G.directed ⟨u, v, w, m⟩ a b = false := by
      rw [hd, ← Bool.not_eq_true]
      intro hf
      rcases edgeMatches_iff.mp hf with ⟨h1, h2⟩ | ⟨-, h1, h2⟩
      · exact hp (Or.inl ⟨h1, h2⟩)
      · exact hp (Or.inr ⟨h1, h2⟩)
    simp [List.filter_cons, hnew]

theorem matchesPair_iff {a b : String} {e : UEdge} :
    matchesPair a b e = true ↔
      (e.fst = a ∧ e.snd = b) ∨ (e.fst = b ∧ e.snd = a) := by
  unfold matchesPair
  simp

/-- One pass of `add_edges_from` over undirected edge tuples, tracked on
the single stored edge between `a` and `b`. -/
theorem edgesBetween_addUEdges {a b : String} (es : List UEdge) :
    ∀ (G : Graph) (cur : Option Edge), G.directed = false →
      edgesBetween G a b = cur.toList →
      edgesBetween (G.addUEdges es) a b =
        (es.foldl (applyU a b) cur).toList := by
  induction es with
  | nil => exact fun G cur _ hcur => hcur
  | cons e es ih =>
    intro G cur hd hcur
    rw [Graph.addUEdges, List.foldl_cons, ← Graph.addUEdges, List.foldl_cons]
    cases hm : matchesPair a b e with
    | false =>
      have hpair : ¬((e.fst = a ∧ e.snd = b) ∨ (e.fst = b ∧ e.snd = a)) := by
        intro hor
        rw [matchesPair_iff.mpr hor] at hm
        cases hm
      have happ : applyU a b cur e = cur := by
        unfold applyU
        rw [hm]
        rfl
      rw [happ]
      exact ih _ cur (by rw [addEdge_directed]; exact hd)
        (by rw [edgesBetween_addEdge_other hd hpair]; exact hcur)
    | true =>
      have hpair := matchesPair_iff.mp hm
      cases cur with
      | none =>
        have happ : applyU a b none e =
            some ⟨e.fst, e.snd, none, e.metabolite⟩ := by
          unfold applyU
          rw [hm]
          rfl
        rw [happ]
        exact ih _ _ (by rw [addEdge_directed]; exact hd)
          (edgesBetween_empty_addEdge hd hpair hcur none e.metabolite)
      | some f =>
        have happ : applyU a b (some f) e =
            some ⟨f.source, f.target, none, e.metabolite⟩ := by
          unfold applyU
          rw [hm]
          rfl
        rw [happ]
        exact ih _ _ (by rw [addEdge_directed]; exact hd)
          (edgesBetween_single_addEdge hd hpair hcur none e.metabolite)

theorem foldl_applyU_filter (a b : String) (es : List UEdge)
    (cur : Option Edge) :
    es.foldl (applyU a b) cur =
      (es.filter (matchesPair a b)).foldl (applyU a b) cur := by
  induction es generalizing cur with
  | nil => rfl
  | cons e es ih =>
    rw [List.foldl_cons, List.filter_cons]
    cases hm : matchesPair a b e with
    | false =>
      have happ : applyU a b cur e = cur := by
        unfold applyU
        rw [hm]
        rfl
      rw [happ]
      simp only [Bool.false_eq_true, if_false]
      exact ih cur
    | true =>
      simp only [if_true, List.foldl_cons]
      exact ih _

theorem applyU_matching {a b : String} {e : UEdge}
    (h : matchesPair a b e = true) (cur : Option Edge) :
    ∃ e', applyU a b cur e = some e' ∧ e'.weight = none ∧
      e'.metabolite = e.metabolite := by
  cases cur with
  | none =>
    refine ⟨⟨e.fst, e.snd, none, e.metabolite⟩, ?_, rfl, rfl⟩
    unfold applyU
    rw [h]
    rfl
  | some f =>
    refine ⟨⟨f.source, f.target, none, e.metabolite⟩, ?_, rfl, rfl⟩
    unfold applyU
    rw [h]
    rfl

theorem foldl_applyU_matched {a b : String} :
    ∀ (l : List UEdge), l ≠ [] → (∀ e ∈ l, matchesPair a b e = true) →
    ∀ cur : Option Edge, ∃ e₀ elast, l.foldl (applyU a b) cur = some e₀ ∧
      l.getLast? = some elast ∧ e₀.weight = none ∧
      e₀.metabolite = elast.metabolite := by
  intro l
  induction l with
  | nil => exact fun h => absurd rfl h
  | cons e t ih =>
    intro _ hall cur
    cases t with
    | nil =>
      obtain ⟨e', happ, hw, hmet⟩ :=
        applyU_matching (hall e (List.mem_cons_self _ _)) cur
      exact ⟨e', e, by rw [List.foldl_cons, List.foldl_nil]; exact happ,
        rfl, hw, hmet⟩
    | cons e₂ t₂ =>
      obtain ⟨e₀, elast, hfold, hlast, hw, hmet⟩ :=
        ih (by simp) (fun x hx => hall x (List.mem_cons_of_mem _ hx))
          (applyU a b cur e)
      refine ⟨e₀, elast, by rw [List.foldl_cons]; exact hfold, ?_, hw, hmet⟩
      rw [List.getLast?_cons_cons]
      exact hlast

def pmatch (a b : String) (p : String × String) : Bool :=
  (p.1 == a && p.2 == b) || (p.1 == b && p.2 == a)

theorem pmatch_iff {a b : String} {p : String × String} :
    pmatch a b p = true ↔ (p.1 = a ∧ p.2 = b) ∨ (p.1 = b ∧ p.2 = a) := by
  unfold pmatch
  simp

theorem filter_beq_of_nodup {l : List String} (hnd : l.Nodup) {c : String}
    (hc : c ∈ l) : l.filter (fun y => y == c) = [c] := by
  induction l with
  | nil => cases hc
  | cons x xs ih =>
    rw [List.nodup_cons] at hnd
    by_cases hxc : x = c
    · subst hxc
      rw [List.filter_cons, if_pos (by simp)]
      rw [List.filter_eq_nil_iff.mpr ?_]
      intro y hy hyc
      have hyx : y = x := by simpa using hyc
      exact hnd.1 (hyx ▸ hy)
    · have hc' : c ∈ xs := by
        rcases List.mem_cons.mp hc with rfl | h
        · exact absurd rfl hxc
        · exact h
      rw [List.filter_cons, if_neg (by simp [hxc])]
      exact ih hnd.2 hc'

/-- The combinations of a reaction list with `a` or `b` absent contain no
pair connecting them. -/
theorem comb2_filter_nil {l : List String} {a b : String}
    (hmem : ¬(a ∈ l ∧ b ∈ l)) :
    (combinations2 l).filter (pmatch a b) = [] := by
  rw [List.filter_eq_nil_iff]
  intro p hp hpm
  have hm := mem_combinations2 hp
  rcases pmatch_iff.mp hpm with ⟨h1, h2⟩ | ⟨h1, h2⟩
  · exact hmem ⟨h1 ▸ hm.1, h2 ▸ hm.2⟩
  · exact hmem ⟨h2 ▸ hm.2, h1 ▸ hm.1⟩

/-- On a duplicate-free reaction list containing both `a` and `b`, the
combinations contain exactly one pair connecting them, in one of the two
orientations. -/
theorem comb2_filter_single {l : List String} (hnd : l.Nodup) {a b : String}
    (hab : a ≠ b) (ha : a ∈ l) (hb : b ∈ l) :
    (combinations2 l).filter (pmatch a b) = [(a, b)] ∨
      (combinations2 l).filter (pmatch a b) = [(b, a)] := by
  induction l with
  | nil => cases ha
  | cons x xs ih =>
    rw [List.nodup_cons] at hnd
    rw [show combinations2 (x :: xs) =
      xs.map (fun y => (x, y)) ++ combinations2 xs from rfl]
    rw [List.filter_append, List.filter_map]
    simp only [Function.comp_def]
    by_cases hxa : x = a
    · subst hxa
      have hbxs : b ∈ xs := by
        rcases List.mem_cons.mp hb with rfl | h
        · exact absurd rfl hab
        · exact h
      rw [List.filter_congr (fun y _ => show pmatch x b (x, y) = (y == b) by
        unfold pmatch
        rw [show ((x, y).1 == x) = true from by simp,
          show ((x, y).1 == b) = false from by simpa using hab]
        rw [Bool.true_and, Bool.false_and, Bool.or_false])]
      rw [filter_beq_of_nodup hnd.2 hbxs]
      rw [comb2_filter_nil (fun hc => hnd.1 hc.1)]
      left
      rfl
    · by_cases hxb : x = b
      · subst hxb
        have haxs : a ∈ xs := by
          rcases List.mem_cons.mp ha with rfl | h
          · exact absurd rfl hxa
          · exact h
        rw [List.filter_congr (fun y _ => show pmatch a x (x, y) = (y == a) by
          unfold pmatch
          rw [show ((x, y).1 == a) = false from by simpa using hxa,
            show ((x, y).1 == x) = true from by simp]
          rw [Bool.true_and, Bool.false_and, Bool.false_or])]
        rw [filter_beq_of_nodup hnd.2 haxs]
        rw [comb2_filter_nil (fun hc => hnd.1 hc.2)]
        right
        rfl
      · have haxs : a ∈ xs := by
          rcases List.mem_cons.mp ha with rfl | h
          · exact absurd rfl hxa
          · exact h
        have hbxs : b ∈ xs := by
          rcases List.mem_cons.mp hb with rfl | h
          · exact absurd rfl hxb
          · exact h
        rw [List.filter_congr (fun y _ => show pmatch a b (x, y) = false by
          unfold pmatch
          rw [show ((x, y).1 == a) = false from by simpa using hxa,
            show ((x, y).1 == b) = false from by simpa using hxb]
          rw [Bool.false_and, Bool.false_and, Bool.or_false])]
        rw [List.filter_false, List.map_nil, List.nil_append]
        exact ih hnd.2 haxs hbxs


theorem filter_flatten {α : Type} (p : α → Bool) (L : List (List α)) :
    L.flatten.filter p = (L.map (fun l => l.filter p)).flatten := by
  induction L with
  | nil => rfl
  | cons l L ih => simp [List.filter_append, ih]

theorem map_flatten {α β : Type} (f : α → β) (L : List (List α)) :
    L.flatten.map f = (L.map (fun l => l.map f)).flatten := by
  induction L with
  | nil => rfl
  | cons l L ih => simp [ih]

theorem group_tuples_filter (m : String) (rs : List String) (a b : String) :
    ((combinations2 rs).map (fun p => UEdge.mk p.1 p.2 m)).filter
        (matchesPair a b) =
      ((combinations2 rs).filter (pmatch a b)).map
        (fun p => UEdge.mk p.1 p.2 m) := by
  rw [List.filter_map]
  simp only [Function.comp_def]
  rw [List.filter_congr (fun p _ =>
    show matchesPair a b (UEdge.mk p.1 p.2 m) = pmatch a b p from rfl)]

/-- The metabolite column of the tuples connecting `a` and `b` is exactly
the shared-metabolite list, in grouping (sorted) order. -/
theorem aux_tuples_met {a b : String} (hab : a ≠ b) :
    ∀ L : List (String × List String), (∀ g ∈ L, g.2.Nodup) →
    ((((L.map (fun g => (combinations2 g.2).map
        (fun p => UEdge.mk p.1 p.2 g.1))).flatten).filter
      (matchesPair a b)).map UEdge.metabolite) =
      (L.filter (fun g => a ∈ g.2 ∧ b ∈ g.2)).map Prod.fst := by
  intro L
  induction L with
  | nil => intro _; rfl
  | cons g L ih =>
    intro hnd
    rw [List.map_cons, List.flatten_cons, List.filter_append, List.map_append]
    rw [ih (fun g' hg' => hnd g' (List.mem_cons_of_mem _ hg'))]
    rw [group_tuples_filter]
    rw [List.filter_cons]
    by_cases hmem : a ∈ g.2 ∧ b ∈ g.2
    · rw [if_pos (by simpa using hmem)]
      rcases comb2_filter_single (hnd g (List.mem_cons_self _ _)) hab
          hmem.1 hmem.2 with hf | hf <;> rw [hf] <;> rfl
    · rw [if_neg (by simpa using hmem)]
      rw [comb2_filter_nil hmem]
      rfl

theorem filtered_tuples_met {model : Model} {a b : String} (hab : a ≠ b)
    (hnd : ∀ g ∈ metGroupsU model, (g.2 : List String).Nodup) :
    ((findEdgesFromModel model).filter (matchesPair a b)).map
        UEdge.metabolite = sharedMets model a b := by
  unfold findEdgesFromModel sharedMets
  exact aux_tuples_met hab (metGroupsU model) hnd

theorem length_filter_key_le_one {l : List (String × Rat)}
    (h : (l.map Prod.fst).Nodup) (m : String) :
    (l.filter (fun mc => mc.1 == m)).length ≤ 1 := by
  induction l with
  | nil => simp
  | cons mc l ih =>
    rw [List.map_cons, List.nodup_cons] at h
    rw [List.filter_cons]
    by_cases hm : mc.1 = m
    · rw [if_pos (by simp [hm])]
      rw [List.filter_eq_nil_iff.mpr ?_]
      · simp
      · intro mc' hmc' hq
        have hq' : mc'.1 = m := by simpa using hq
        exact absurd (by rw [hm, ← hq']; exact List.mem_map_of_mem _ hmc') h.1
    · rw [if_neg (by simp [hm])]
      exact le_trans (ih h.2) (le_refl 1)

theorem block_filter_options {r : Reaction} (h : (r.mets.map Prod.fst).Nodup)
    (m : String) :
    (((r.mets.map (fun mc => (r.id, mc.1))).filter
        (fun p => p.2 == m)).map Prod.fst) = [] ∨
    (((r.mets.map (fun mc => (r.id, mc.1))).filter
        (fun p => p.2 == m)).map Prod.fst) = [r.id] := by
  rw [List.filter_map]
  simp only [Function.comp_def]
  rw [List.filter_congr (fun mc _ =>
    show (((r.id, mc.1) : String × String).2 == m) = (mc.1 == m) from rfl)]
  have hlen := length_filter_key_le_one h m
  cases hf : r.mets.filter (fun mc => mc.1 == m) with
  | nil =>
    left
    rfl
  | cons mc tl =>
    cases tl with
    | nil =>
      right
      rfl
    | cons mc2 tl2 =>
      rw [hf] at hlen
      simp at hlen

theorem flatten_blocks_sublist {rs : List Reaction} {F : Reaction → List String}
    (hF : ∀ r ∈ rs, F r = [] ∨ F r = [r.id]) :
    List.Sublist (rs.map F).flatten (rs.map Reaction.id) := by
  induction rs with
  | nil => exact List.Sublist.refl _
  | cons r rs ih =>
    rw [List.map_cons, List.flatten_cons, List.map_cons]
    rcases hF r (List.mem_cons_self _ _) with h | h
    · rw [h, List.nil_append]
      exact (ih (fun x hx => hF x (List.mem_cons_of_mem _ hx))).cons _
    · rw [h, List.singleton_append]
      exact (ih (fun x hx => hF x (List.mem_cons_of_mem _ hx))).cons₂ _

theorem metGroupsU_rs_eq {model : Model} {m : String} {rs : List String}
    (h : (m, rs) ∈ metGroupsU model) :
    rs = ((stoichPairs model).filter (fun p => p.2 == m)).map Prod.fst := by
  unfold metGroupsU at h
  obtain ⟨m', hm', heq⟩ := List.mem_map.mp h
  cases heq
  rfl

/-- Every metabolite group's reaction list is duplicate-free when the
model's reaction ids are and each reaction lists each metabolite once. -/
theorem metGroupsU_rs_nodup {model : Model}
    (hids : (model.reactions.map Reaction.id).Nodup)
    (hmets : ∀ r ∈ model.reactions, (r.mets.map Prod.fst).Nodup) :
    ∀ g ∈ metGroupsU model, (g.2 : List String).Nodup := by
  rintro ⟨m, rs⟩ hg
  show rs.Nodup
  rw [metGroupsU_rs_eq hg]
  unfold stoichPairs
  rw [filter_flatten, map_flatten, List.map_map, List.map_map]
  simp only [Function.comp_def]
  have hsub : List.Sublist ((model.reactions.map (fun r =>
      ((r.mets.map (fun mc => (r.id, mc.1))).filter
        (fun p => p.2 == m)).map Prod.fst)).flatten)
      (model.reactions.map Reaction.id) :=
    flatten_blocks_sublist (fun r hr => block_filter_options (hmets r hr) m)
  exact hsub.nodup hids

theorem metGroupsU_fst_sorted (model : Model) :
    ((metGroupsU model).map Prod.fst).Sorted (· ≤ ·) := by
  unfold metGroupsU
  rw [List.map_map]
  have hs : ((uniqueMetsOfPairs (stoichPairs model)).insertionSort
      (· ≤ ·)).Sorted (· ≤ ·) :=
    List.sorted_insertionSort _ _
  exact hs.map _ (fun a b h => h)

theorem sharedMets_sorted (model : Model) (a b : String) :
    (sharedMets model a b).Sorted (· ≤ ·) := by
  unfold sharedMets
  exact List.Pairwise.sublist ((List.filter_sublist _).map _)
    (metGroupsU_fst_sorted model)

theorem sorted_le_getLast? {l : List String} (hs : l.Sorted (· ≤ ·))
    {last : String} (hlast : l.getLast? = some last) :
    ∀ x ∈ l, x ≤ last := by
  induction l with
  | nil => cases hlast
  | cons c t ih =>
    cases t with
    | nil =>
      cases hlast
      intro x hx
      rw [List.mem_singleton] at hx
      subst hx
      exact le_refl _
    | cons c₂ t₂ =>
      rw [List.getLast?_cons_cons] at hlast
      have htail := ih (List.pairwise_cons.mp hs).2 hlast
      intro x hx
      rcases List.mem_cons.mp hx with rfl | hx'
      · obtain ⟨hne, heq⟩ := List.mem_getLast?_eq_getLast
          (show last ∈ (c₂ :: t₂).getLast? from hlast)
        exact (List.pairwise_cons.mp hs).1 last
          (by rw [heq]; exact List.getLast_mem hne)
      · exact htail x hx'

theorem getLast?_map_met (l : List UEdge) :
    (l.map UEdge.metabolite).getLast? = l.getLast?.map UEdge.metabolite := by
  induction l with
  | nil => rfl
  | cons a t ih =>
    cases t with
    | nil => rfl
    | cons b t2 =>
      rw [List.map_cons, List.map_cons, List.getLast?_cons_cons,
        List.getLast?_cons_cons, ← List.map_cons]
      exact ih

theorem foldl_addNode_rxn_edges (rs : List Reaction) (G : Graph) :
    (rs.foldl (fun G r => G.addNode r.id) G).edges = G.edges := by
  induction rs generalizing G with
  | nil => rfl
  | cons r rs ih => rw [List.foldl_cons, ih, addNode_edges]

/-! ## Concrete test models -/

/-- A single reversible reaction `R` producing metabolite `M`
(coefficient `+1`) with FVA interval `[-5, 3]`: it qualifies both as a
source (forward branch) and as a sink (reverse branch) of `M`. -/
def modelC1 : Model :=
  ⟨[⟨"R", [("M", 1)], true⟩]⟩

/-- FVA response for `modelC1`. -/
def fvaC1 : Fva :=
  [("R", (-5, 3))]

/-- Irreversible reaction `A` (coefficient `+2` for `M`, flux interval
`[0, 10]`) feeding irreversible reaction `B` (coefficient `-1` for `M`). -/
def modelC3 : Model :=
  ⟨[⟨"A", [("M", 2)], false⟩, ⟨"B", [("M", -1)], false⟩]⟩

/-- FVA response for `modelC3`. -/
def fvaC3 : Fva :=
  [("A", (0, 10)), ("B", (0, 4))]

/-- A model whose only reaction has a metabolite but no entry in the
flux-variability results. -/
def modelC5 : Model :=
  ⟨[⟨"A", [("M", -1)], false⟩]⟩

/-- Two irreversible reactions sharing the two metabolites `a` and `b`;
`a` is encountered first, `b` second, in both reactions. -/
def modelC8 : Model :=
  ⟨[⟨"R1", [("a", 1), ("b", -1)], false⟩, ⟨"R2", [("a", -1), ("b", 1)], false⟩]⟩

/-! ## Claim theorems -/

/-- **C1** (status: code_bug).  The claim says no emitted edge ever has
`source == sink`, including when a reversible reaction qualifies as both
a source and a sink of the same metabolite.  `reaction_network.py`
enforces this (`if source != sink:`), but the resolution loop of
`metabolic_network.py` has no such check: on a single reversible reaction
`R` with coefficient `+1` for `M` and FVA interval `[-5, 3]`, the
directed network it builds contains the self-loop edge
`(R, R, weight 3, metabolite M)`, while the `reaction_network.py`
implementation of the same derivation emits no edge at all. -/
theorem C1_self_loop_emitted :
    createDirectedMetabolicNetwork false modelC1 fvaC1 =
      Except.ok ⟨true, ["R"], [⟨"R", "R", some 3, "M"⟩]⟩ ∧
    findDirectedEdgesFromModelRN false modelC1 fvaC1 = Except.ok [] := by
  constructor <;> with_unfolding_all rfl

/-- **C4** (status: code_bug).  The claim says a negative-flux
irreversible source has ONLY its flux clamped to zero.  In
`reaction_network.py`, `sources_irreversible_df.loc[flux < 0] = 0`
broadcasts `0` into EVERY column, destroying the reaction identifier, the
metabolite and the coefficient along with the flux; in
`metabolic_network.py` no clamping is applied at all and the negative
flux survives.  Sink rows keep their data in both (only sources are
clamped). -/
theorem C4_clamp_destroys_row :
    sourcesIrreversibleRN [⟨"A", "M", false, 2, -1, -3⟩] = [⟨"0", "0", 0, 0⟩] ∧
    sourcesIrreversible [⟨"A", "M", false, 2, -1, -3⟩] = [⟨"A", "M", 2, -1⟩] ∧
    sinksIrreversible [⟨"B", "M", false, -1, 5, 0⟩] = [⟨"B", "M", -1, 5⟩] := by
  refine ⟨?_, ?_, ?_⟩ <;> with_unfolding_all rfl

/-- **C2** (status: confirmed).  For every ordered pair `(s, t)` with at
least one candidate, edge resolution as implemented in
`metabolic_network.py` emits exactly one resolved edge for that pair; the
kept candidate belongs to the pair's candidate group, attains the
minimum weight of the group when `reciprocal_weight` is true and the
maximum when it is false, and is the first-produced candidate among those
of equal weight (it is the first element of the group carrying its
weight).  The `reaction_network.py` resolution behaves identically on
every pair of distinct reactions. -/
theorem C2_resolution_unique_minmax_first (recip : Bool)
    (cs : List Candidate) (s t : String)
    (h : groupOf cs (s, t) ≠ []) :
    ∃ c,
      ((resolveEdges recip cs).filter (fun d => d.key = (s, t))) = [c] ∧
      c ∈ groupOf cs (s, t) ∧
      (∀ d ∈ groupOf cs (s, t),
        if recip then c.weight ≤ d.weight else d.weight ≤ c.weight) ∧
      (groupOf cs (s, t)).find? (fun d => d.weight == c.weight) = some c ∧
      (s ≠ t →
        ((resolveEdgesRN recip cs).filter (fun d => d.key = (s, t))) = [c]) := by
  obtain ⟨c, hres, hmem, hopt, hfirst⟩ := @resolveGroup_spec recip (groupOf cs (s, t)) h
  have hkmem : (s, t) ∈ pairKeys cs :=
    mem_pairKeys.mpr ⟨c, (mem_groupOf hmem).1, (mem_groupOf hmem).2⟩
  refine ⟨c, ?_, hmem, hopt, hfirst, ?_⟩
  · exact filter_key_filterMap_eq_singleton
      (fun k' c' h' => resolveGroup_key h') (pairKeys_nodup cs) hkmem hres
  · intro hst
    unfold resolveEdgesRN
    refine filter_key_filterMap_eq_singleton ?_ (pairKeys_nodup cs) hkmem ?_
    · intro k' c' h'
      by_cases hk' : k'.1 ≠ k'.2
      · rw [if_pos hk'] at h'
        exact resolveGroup_key h'
      · rw [if_neg hk'] at h'
        cases h'
    · rw [if_pos (by simpa using hst)]
      exact hres

/-- Concrete witness for the pair `("A", "B")` over two candidates of
weights `2` and `1` sharing the key: under reciprocal weighting the
second (weight-1) candidate is kept. -/
def csC2 : List Candidate :=
  [⟨"A", "B", 2, "m1"⟩, ⟨"A", "B", 1, "m2"⟩]

theorem C2_witness :
    ∃ c,
      ((resolveEdges true csC2).filter (fun d => d.key = ("A", "B"))) = [c] ∧
      c ∈ groupOf csC2 ("A", "B") ∧
      (∀ d ∈ groupOf csC2 ("A", "B"),
        if true then c.weight ≤ d.weight else d.weight ≤ c.weight) ∧
      (groupOf csC2 ("A", "B")).find? (fun d => d.weight == c.weight) = some c ∧
      ("A" ≠ "B" →
        ((resolveEdgesRN true csC2).filter (fun d => d.key = ("A", "B"))) = [c]) :=
  C2_resolution_unique_minmax_first true csC2 "A" "B"
    (by with_unfolding_all decide)

/-- **C3** (status: confirmed).  Every candidate edge derived for a
metabolite group whose rows carry distinct reaction ids has weight
`source.flux * source.coefficient` (the sink's flux and coefficient never
enter), reciprocal form `1 / (source.flux * source.coefficient + 1e-30)`
when `reciprocal_weight` is set; concretely, for irreversible `A`
(coefficient `+2`, max flux `10`) feeding irreversible `B`, the single
resolved edge `(A, B)` carries weight `10 * 2 = 20` without reciprocal
weighting and exactly `1 / (20 + 1e-30)` (within `1e-30` of `1/20`) with
it. -/
theorem C3_weight_formula (recip : Bool) (met : String) (g : List Row)
    (h : (g.map Row.rxn).Nodup) :
    (∀ c ∈ candidatesForGroup recip met g, ∃ s ∈ sourceEntries g,
        c.source = s.rxn ∧
        c.weight = (if recip then 1 / (s.flux * s.coefficient + eps)
          else s.flux * s.coefficient)) ∧
    findDirectedEdgesFromModel false modelC3 fvaC3 =
      Except.ok [⟨"A", "B", 20, "M"⟩] ∧
    findDirectedEdgesFromModel true modelC3 fvaC3 =
      Except.ok [⟨"A", "B", 1 / (20 + eps), "M"⟩] ∧
    |1 / (20 + eps) - 1 / 20| < eps := by
  refine ⟨?_, ?_, ?_, ?_⟩
  · intro c hc
    obtain ⟨s, hs, t, ht, rfl⟩ := mem_candidatesOver.mp hc
    refine ⟨s, hs, rfl, ?_⟩
    have hfind : (sourceEntries g).find? (fun e => e.rxn == s.rxn) = some s :=
      find?_rxn_self (sourceEntries_rxn_nodup h) hs
    exact lookupWeight_eq hfind
  · have h20 : (10 : Rat) * 2 = 20 := by norm_num
    rw [← h20]
    with_unfolding_all rfl
  · have h20 : (10 : Rat) * 2 = 20 := by norm_num
    rw [← h20]
    with_unfolding_all rfl
  · rw [abs_lt]
    constructor <;> (rw [eps]; norm_num)

/-- Concrete witness discharging the distinct-reaction-id hypothesis of
the weight-formula theorem on the two-row group of `modelC3`. -/
theorem C3_witness :
    (∀ c ∈ candidatesForGroup true "M"
        [⟨"A", "M", false, 2, 10, 0⟩, ⟨"B", "M", false, -1, 4, 0⟩],
        ∃ s ∈ sourceEntries
          [⟨"A", "M", false, 2, 10, 0⟩, ⟨"B", "M", false, -1, 4, 0⟩],
        c.source = s.rxn ∧
        c.weight = (if true then 1 / (s.flux * s.coefficient + eps)
          else s.flux * s.coefficient)) ∧
    findDirectedEdgesFromModel false modelC3 fvaC3 =
      Except.ok [⟨"A", "B", 20, "M"⟩] ∧
    findDirectedEdgesFromModel true modelC3 fvaC3 =
      Except.ok [⟨"A", "B", 1 / (20 + eps), "M"⟩] ∧
    |1 / (20 + eps) - 1 / 20| < eps :=
  C3_weight_formula true "M"
    [⟨"A", "M", false, 2, 10, 0⟩, ⟨"B", "M", false, -1, 4, 0⟩]
    (by with_unfolding_all decide)

/-- **C5** counterexample (status: corrected).  The claim names a
`MissingFluxDataError`, but no such error class exists anywhere in the
repository: on a model whose only reaction has no entry in the
flux-variability results, directed construction fails with the pandas
`KeyError` of the `fva_results.loc` lookup, which is not the
spec's data-missing error. -/
theorem C5_counterexample :
    createDirectedMetabolicNetwork true modelC5 [] =
      Except.error (Err.keyError "A") ∧
    Err.keyError "A" ≠ Err.missingFluxData := by
  refine ⟨by with_unfolding_all rfl, ?_⟩
  intro h
  cases h

/-- **C5** as amended (status: corrected).  Constructing a directed graph
from a model in which some reaction carrying a metabolite is missing from
the flux-variability results fails with a `KeyError` from the
flux-results lookup — it never silently produces zero-weight edges —
while undirected construction consumes no flux data at all (it is a total
function of the stoichiometry alone and always yields an undirected
graph). -/
theorem C5_directed_requires_flux (model : Model) (fva : Fva) (recip : Bool)
    (h : ∃ r ∈ model.reactions, r.mets ≠ [] ∧ fvaLookup fva r.id = none) :
    (∃ s, createDirectedMetabolicNetwork recip model fva =
      Except.error (Err.keyError s)) ∧
    (createMetabolicNetwork model).directed = false := by
  obtain ⟨s, hs⟩ := buildRows_missing h
  refine ⟨⟨s, ?_⟩, createMetabolicNetwork_directed model⟩
  unfold createDirectedMetabolicNetwork findDirectedEdgesFromModel
  rw [hs]
  rfl

/-- Concrete witness: `modelC5` with an empty flux-variability response. -/
theorem C5_witness :
    (∃ s, createDirectedMetabolicNetwork true modelC5 [] =
      Except.error (Err.keyError s)) ∧
    (createMetabolicNetwork modelC5).directed = false :=
  C5_directed_requires_flux modelC5 [] true
    ⟨⟨"A", [("M", -1)], false⟩, by with_unfolding_all decide, by
      with_unfolding_all decide, rfl⟩

/-- **C6** counterexample (status: corrected).  The claim says the
adapter fails with a `FormatError` on an unrecognized format and "never
returns successfully"; in fact `load_cobra_model_from_file` falls through
all four recognized-format branches and RETURNS `None` without raising:
on the path `"model.txt"` (extension `txt`, recognized by no branch) the
call succeeds with no model. -/
theorem C6_counterexample :
    loadCobraModelFromFile (ModelInput.path "model.txt") none =
      Except.ok none := by
  with_unfolding_all rfl

/-- **C6** as amended (status: corrected).  For an unrecognized
(nonempty) format tag the adapter returns `None` (no model) without
raising, whether the tag came with a path or a non-path input; only when
the input is not a path string and no (nonempty) format hint is supplied
does it fail, raising an `AttributeError` (the repository defines no
`FormatError`/`MissingFormatError` classes). -/
theorem C6_unrecognized_returns_none (s ft : String)
    (h1 : ¬ ft ∈ ["JSON", "json", ".json"])
    (h2 : ¬ ft ∈ ["sbml", "xml", "SBML", ".xml"])
    (h3 : ¬ ft ∈ ["yaml", ".yml", "YAML"])
    (h4 : ¬ ft ∈ ["matlab", "mat", ".mat", "Matlab", "MatLab"])
    (h5 : ft ≠ "") :
    recognizedFileType ft = false ∧
    loadCobraModelFromFile (ModelInput.path s) (some ft) = Except.ok none ∧
    loadCobraModelFromFile ModelInput.fileObject (some ft) = Except.ok none ∧
    loadCobraModelFromFile ModelInput.fileObject none =
      Except.error (Err.attributeError missingTypeMsg) := by
  have hE : ft.isEmpty = false := by
    rw [Bool.eq_false_iff]
    intro hh
    exact h5 ((String.isEmpty_iff ft).mp hh)
  have hrec : recognizedFileType ft = false := by
    simp only [recognizedFileType, Bool.or_eq_false_iff, decide_eq_false_iff_not]
    exact ⟨⟨⟨h1, h2⟩, h3⟩, h4⟩
  have hresP : resolveFileType (ModelInput.path s) (some ft) = Except.ok ft := by
    simp [resolveFileType, hE]
  have hresF : resolveFileType ModelInput.fileObject (some ft) =
      Except.ok ft := by
    simp [resolveFileType, hE]
  simp only [List.mem_cons, List.mem_singleton, not_or] at h1 h2 h3 h4
  refine ⟨hrec, ?_, ?_, rfl⟩
  · simp [loadCobraModelFromFile, hresP, Except.map, h1, h2, h3, h4]
  · simp [loadCobraModelFromFile, hresF, Except.map, h1, h2, h3, h4]

/-- Concrete witness: format tag `txt`, recognized by no branch. -/
theorem C6_witness :
    recognizedFileType "txt" = false ∧
    loadCobraModelFromFile (ModelInput.path "model") (some "txt") =
      Except.ok none ∧
    loadCobraModelFromFile ModelInput.fileObject (some "txt") =
      Except.ok none ∧
    loadCobraModelFromFile ModelInput.fileObject none =
      Except.error (Err.attributeError missingTypeMsg) :=
  C6_unrecognized_returns_none "model" "txt" (by decide) (by decide)
    (by decide) (by decide) (by decide)

/-- **C7** (status: confirmed).  Node-link persistence round-trips every
graph the system produces: for every well-formed graph,
`read(write(G)) = G` — node list, edge list with `weight` and
`metabolite` attributes, and the `directed` flag — for either value of
the caller-supplied `directed` argument (the flag stored in the document
wins); and both construction entry points only produce well-formed
graphs. -/
theorem C7_node_link_roundtrip (G G' : Graph) (d recip : Bool)
    (model : Model) (fva : Fva) (hG : G.wellFormed) :
    readNetwork (writeNetwork G) d = G ∧
    (createMetabolicNetwork model).wellFormed ∧
    (createDirectedMetabolicNetwork recip model fva = Except.ok G' →
      G'.wellFormed) :=
  ⟨readNetwork_writeNetwork hG d, createMetabolicNetwork_wf model,
    fun h => createDirectedMetabolicNetwork_wf h⟩

/-- Concrete witness: a two-node directed graph with one attributed edge,
round-tripped through the node-link document with the opposite
`directed` argument. -/
def graphC7 : Graph :=
  ⟨true, ["R1", "R2"], [⟨"R1", "R2", some 3, "M"⟩]⟩

theorem C7_witness :
    readNetwork (writeNetwork graphC7) false = graphC7 ∧
    (createMetabolicNetwork modelC1).wellFormed ∧
    (Graph.wellFormed ⟨true, ["R"], [⟨"R", "R", some 3, "M"⟩]⟩) :=
  have h := C7_node_link_roundtrip graphC7
    ⟨true, ["R"], [⟨"R", "R", some 3, "M"⟩]⟩
    false false modelC1 fvaC1 (by with_unfolding_all decide)
  ⟨h.1, h.2.1, h.2.2 (by with_unfolding_all rfl)⟩

/-- **C9** (status: confirmed).  The node set of any produced graph,
undirected or directed, is exactly the set of the model's reaction ids: a
reaction with no metabolites still appears as an isolated node (it is
added up front), and adding edges introduces no node outside the set
(every edge endpoint is a reaction id already present). -/
theorem C9_node_set (model : Model) (recip : Bool) (fva : Fva) (G : Graph)
    (x : String) :
    (x ∈ (createMetabolicNetwork model).nodes ↔
      x ∈ model.reactions.map Reaction.id) ∧
    (createDirectedMetabolicNetwork recip model fva = Except.ok G →
      (x ∈ G.nodes ↔ x ∈ model.reactions.map Reaction.id)) := by
  have hbase : ∀ d : Bool, ∀ y : String,
      y ∈ (model.reactions.foldl (fun G r => G.addNode r.id)
        (Graph.empty d)).nodes ↔ y ∈ model.reactions.map Reaction.id := by
    intro d y
    rw [mem_foldl_addNode_rxn]
    simp [Graph.empty]
  constructor
  · unfold createMetabolicNetwork
    rw [addUEdges_nodes_of_mem]
    · exact hbase false x
    · intro e he
      have hend := findEdgesFromModel_endpoints he
      exact ⟨(hbase false e.fst).mpr hend.1, (hbase false e.snd).mpr hend.2⟩
  · intro hok
    obtain ⟨es, hes, rfl⟩ := except_map_ok hok
    unfold findDirectedEdgesFromModel at hes
    obtain ⟨rows, hrows, rfl⟩ := except_map_ok hes
    rw [addDEdges_nodes_of_mem]
    · exact hbase true x
    · intro e he
      have hsub := mem_resolveEdges_sub he
      have hend := allCandidates_endpoints hsub
      obtain ⟨r₁, hr₁, hx₁⟩ := List.mem_map.mp hend.1
      obtain ⟨r₂, hr₂, hx₂⟩ := List.mem_map.mp hend.2
      exact ⟨(hbase true e.source).mpr
          (hx₁ ▸ buildRows_rxn_mem hrows r₁ hr₁),
        (hbase true e.sink).mpr (hx₂ ▸ buildRows_rxn_mem hrows r₂ hr₂)⟩

/-- Concrete witness: `modelC1` extended with an isolated reaction would
also work; here the single-reaction model shows both constructions, with
the directed one evaluated through its `Except.ok` result. -/
theorem C9_witness :
    ("R" ∈ (createMetabolicNetwork modelC1).nodes ↔
      "R" ∈ modelC1.reactions.map Reaction.id) ∧
    (createDirectedMetabolicNetwork false modelC1 fvaC1 =
        Except.ok ⟨true, ["R"], [⟨"R", "R", some 3, "M"⟩]⟩ →
      ("R" ∈ (Graph.nodes ⟨true, ["R"], [⟨"R", "R", some 3, "M"⟩]⟩) ↔
        "R" ∈ modelC1.reactions.map Reaction.id)) :=
  C9_node_set modelC1 false fvaC1 ⟨true, ["R"], [⟨"R", "R", some 3, "M"⟩]⟩ "R"

/-- **C8** counterexample (status: corrected).  The claim says the
single edge between two reactions sharing several metabolites is
annotated with the FIRST-found shared metabolite.  On two reactions
sharing metabolites `a` and `b` (each reaction lists `a` first), the
produced edge carries metabolite `"b"`, the LAST-processed (alphabetically
greatest) shared metabolite: each later group's `add_edge` overwrites the
annotation. -/
theorem C8_counterexample :
    createMetabolicNetwork modelC8 =
      ⟨false, ["R1", "R2"], [⟨"R1", "R2", none, "b"⟩]⟩ ∧
    sharedMets modelC8 "R1" "R2" = ["a", "b"] ∧
    ("b" : String) ≠ "a" := by
  refine ⟨by with_unfolding_all rfl, by with_unfolding_all rfl, by decide⟩

/-- **C8** as amended (status: corrected).  In undirected mode flux data
is never consulted (the construction is a function of the stoichiometry
alone); any two distinct reactions sharing at least one metabolite are
connected by exactly one unweighted edge, and that edge is annotated
with the LAST-found shared metabolite — the greatest shared metabolite
id, since metabolite groups are processed in sorted order and each
later `add_edge` call overwrites the annotation.  Reactions sharing no
metabolite get no edge. -/
theorem C8_one_edge_last_shared_met (model : Model) (a b : String)
    (hids : (model.reactions.map Reaction.id).Nodup)
    (hmets : ∀ r ∈ model.reactions, (r.mets.map Prod.fst).Nodup)
    (hab : a ≠ b) :
    (sharedMets model a b = [] →
      edgesBetween (createMetabolicNetwork model) a b = []) ∧
    (sharedMets model a b ≠ [] →
      ∃ e, edgesBetween (createMetabolicNetwork model) a b = [e] ∧
        e.weight = none ∧ e.metabolite ∈ sharedMets model a b ∧
        (∀ m' ∈ sharedMets model a b, m' ≤ e.metabolite)) := by
  have hG₁edges : (model.reactions.foldl (fun G r => G.addNode r.id)
      (Graph.empty false)).edges = [] := by
    rw [foldl_addNode_rxn_edges]
    rfl
  have hG₁dir : (model.reactions.foldl (fun G r => G.addNode r.id)
      (Graph.empty false)).directed = false := by
    rw [foldl_addNode_directed]
    rfl
  have hstart : edgesBetween (model.reactions.foldl (fun G r => G.addNode r.id)
      (Graph.empty false)) a b = (none : Option Edge).toList := by
    unfold edgesBetween
    rw [hG₁edges]
    rfl
  have hmain : edgesBetween (createMetabolicNetwork model) a b =
      (((findEdgesFromModel model).filter (matchesPair a b)).foldl
        (applyU a b) none).toList := by
    unfold createMetabolicNetwork
    rw [edgesBetween_addUEdges (findEdgesFromModel model) _ none hG₁dir hstart]
    rw [foldl_applyU_filter]
  have hmet := filtered_tuples_met hab (metGroupsU_rs_nodup hids hmets)
  constructor
  · intro hnil
    rw [hmain]
    rw [List.map_eq_nil_iff.mp (hmet.trans hnil)]
    rfl
  · intro hne
    have hfne : (findEdgesFromModel model).filter (matchesPair a b) ≠ [] := by
      intro h0
      apply hne
      rw [← hmet, h0]
      rfl
    obtain ⟨e₀, elast, hfold, hlast, hw, hmetab⟩ :=
      foldl_applyU_matched _ hfne
        (fun e he => (List.mem_filter.mp he).2) none
    refine ⟨e₀, ?_, hw, ?_, ?_⟩
    · rw [hmain, hfold]
      rfl
    · rw [hmetab, ← hmet]
      obtain ⟨hne', heq⟩ := List.mem_getLast?_eq_getLast
        (show elast ∈ _ from hlast)
      exact List.mem_map_of_mem _ (by rw [heq]; exact List.getLast_mem hne')
    · intro m' hm'
      rw [hmetab]
      refine sorted_le_getLast? (sharedMets_sorted model a b) ?_ m' hm'
      rw [← hmet, getLast?_map_met, hlast]
      rfl

/-- Concrete witness: `modelC8`, whose reactions share metabolites `a`
and `b`; the single produced edge is annotated with `b`. -/
theorem C8_witness :
    ∃ e, edgesBetween (createMetabolicNetwork modelC8) "R1" "R2" = [e] ∧
      e.weight = none ∧ e.metabolite ∈ sharedMets modelC8 "R1" "R2" ∧
      (∀ m' ∈ sharedMets modelC8 "R1" "R2", m' ≤ e.metabolite) :=
  (C8_one_edge_last_shared_met modelC8 "R1" "R2"
      (by with_unfolding_all decide) (by with_unfolding_all decide)
      (by decide)).2
    (by with_unfolding_all decide)

/-- **C10** (status: code_bug).  The `-r` command-line flag is a
`store_true` option whose default is already `True`, so the parsed
`reciprocal` destination is `True` for every argument vector and
reciprocal weighting can never be disabled from the command line — that
part of the claim is right.  But the tool never builds any directed
graph at all: `main`'s directed branch passes `verbose=verbose` to
`metabolic_network.create_directed_metabolic_network`, whose signature
has no `verbose` parameter (the near-duplicate
`reaction_network.create_directed_reaction_network`, which the script
was evidently written against, does accept it), so the call raises
`TypeError` on every invocation before any graph construction runs. -/
theorem C10_reciprocal_true_and_directed_typeerror (argv : List String)
    (model : Model) (fva : Fva) :
    parseReciprocal argv = true ∧
    mainDirectedNetwork argv model fva =
      Except.error (Err.typeError
        "create_directed_metabolic_network got an unexpected keyword argument verbose") := by
  constructor
  · unfold parseReciprocal storeTrueOption
    split <;> rfl
  · unfold mainDirectedNetwork
    rw [if_neg]
    intro h
    have hv : ("verbose" : String) ∈ mainDirectedKwargs := by decide
    have := List.all_eq_true.mp h _ hv
    exact absurd (by simpa using this) (by decide)

end Myco
